import Mathlib

/-!
# gokvmemorystore: a shallow embedding of the cache and its command protocol

The Go sources embedded here are `cache.go` (the store, its persistence and the
HTTP handlers) and `main.go` (`processmsg`, the command protocol shared by the
TCP and UDP front ends).

Conventions of the embedding

* a Go `byte` is a natural number (`Nat`); every byte the program produces is
  below 256;
* a Go `string` is the list of its bytes (`GoString`);
* a Go `[]byte` whose capacity and aliasing do not matter is a `ByteSlice`:
  `none` is the `nil` slice, `some bs` a non-nil slice with contents `bs`
  (`some []` is the empty, non-nil slice);
* a Go `map[string]V` is a `GoMap V`: a list of entries with pairwise distinct
  keys;
* the reader/writer lock is not modelled: every operation is one atomic step.
-/

namespace Gokv

/-! ## Bytes and strings -/

/-- A Go `string`: an immutable sequence of bytes. -/
abbrev GoString := List Nat

/-- A Go `[]byte` up to capacity and aliasing: `none` is `nil`. -/
abbrev ByteSlice := Option (List Nat)

/-- The bytes of an ASCII string literal of the Go source. -/
def bytes (s : String) : List Nat := s.toList.map Char.toNat

/-- Go conversion `string(b)` of a byte slice: `string(nil)` is the empty string. -/
def toGoString : ByteSlice → GoString
  | none => []
  | some bs => bs

/-- Go conversion `[]byte(s)` of a string: never `nil`. -/
def toByteSlice (s : GoString) : ByteSlice := some s

/-! ## Go maps with string keys -/

/-- Lookup `m[k]` in an entry list: the first entry with key `k`. -/
def lookupL {V : Type} (k : GoString) : List (GoString × V) → Option V
  | [] => none
  | (k', v) :: l => if k' = k then some v else lookupL k l

/-- Assignment `m[k] = v` on an entry list: overwrite the entry of `k` where it
stands, or add a new entry. -/
def insertL {V : Type} (k : GoString) (v : V) : List (GoString × V) → List (GoString × V)
  | [] => [(k, v)]
  | (k', v') :: l => if k' = k then (k, v) :: l else (k', v') :: insertL k v l

/-- Removal `delete(m, k)` on an entry list. -/
def eraseL {V : Type} (k : GoString) : List (GoString × V) → List (GoString × V)
  | [] => []
  | (k', v') :: l => if k' = k then eraseL k l else (k', v') :: eraseL k l

theorem mem_keys_insertL {V : Type} (k : GoString) (v : V) (l : List (GoString × V))
    (a : GoString) : a ∈ (insertL k v l).map Prod.fst ↔ a = k ∨ a ∈ l.map Prod.fst := by
  induction l with
  | nil => simp [insertL]
  | cons e l ih =>
    obtain ⟨k', v'⟩ := e
    by_cases h : k' = k
    · subst h; simp [insertL]
    · simp only [insertL, if_neg h, List.map_cons, List.mem_cons, ih]
      tauto

theorem nodup_insertL {V : Type} (k : GoString) (v : V) (l : List (GoString × V))
    (h : (l.map Prod.fst).Nodup) : ((insertL k v l).map Prod.fst).Nodup := by
  induction l with
  | nil => simp [insertL]
  | cons e l ih =>
    obtain ⟨k', v'⟩ := e
    rw [List.map_cons, List.nodup_cons] at h
    by_cases hk : k' = k
    · subst hk
      simp only [insertL, if_true, List.map_cons, List.nodup_cons]
      exact h
    · simp only [insertL, if_neg hk, List.map_cons, List.nodup_cons, mem_keys_insertL]
      refine ⟨?_, ih h.2⟩
      rintro (h1 | h1)
      · exact hk h1
      · exact h.1 h1

theorem mem_keys_eraseL {V : Type} (k : GoString) (l : List (GoString × V))
    (a : GoString) : a ∈ (eraseL k l).map Prod.fst ↔ a ≠ k ∧ a ∈ l.map Prod.fst := by
  induction l with
  | nil => simp [eraseL]
  | cons e l ih =>
    obtain ⟨k', v'⟩ := e
    by_cases h : k' = k
    · subst h
      simp only [eraseL, if_true, ih, List.map_cons, List.mem_cons]
      tauto
    · simp only [eraseL, if_neg h, List.map_cons, List.mem_cons, ih]
      constructor
      · rintro (h1 | h1)
        · subst h1; exact ⟨h, Or.inl rfl⟩
        · exact ⟨h1.1, Or.inr h1.2⟩
      · rintro ⟨h1, h2 | h2⟩
        · exact Or.inl h2
        · exact Or.inr ⟨h1, h2⟩

theorem nodup_eraseL {V : Type} (k : GoString) (l : List (GoString × V))
    (h : (l.map Prod.fst).Nodup) : ((eraseL k l).map Prod.fst).Nodup := by
  induction l with
  | nil => simp [eraseL]
  | cons e l ih =>
    obtain ⟨k', v'⟩ := e
    rw [List.map_cons, List.nodup_cons] at h
    by_cases hk : k' = k
    · simp only [eraseL, if_pos hk]
      exact ih h.2
    · simp only [eraseL, if_neg hk, List.map_cons, List.nodup_cons, mem_keys_eraseL]
      exact ⟨fun h1 => h.1 h1.2, ih h.2⟩

/-- A Go `map[string]V`: entries with pairwise distinct keys.  The order of the
entries stands for the (unspecified) iteration order of the Go map. -/
structure GoMap (V : Type) where
  entries : List (GoString × V)
  nodup : (entries.map Prod.fst).Nodup

namespace GoMap

variable {V : Type}

/-- The empty map, `make(map[string]V)`. -/
def empty : GoMap V := ⟨[], List.nodup_nil⟩

/-- Go `v, found := m[k]`. -/
def lookup (m : GoMap V) (k : GoString) : Option V := lookupL k m.entries

/-- Go `m[k] = v`. -/
def insert (m : GoMap V) (k : GoString) (v : V) : GoMap V :=
  ⟨insertL k v m.entries, nodup_insertL k v m.entries m.nodup⟩

/-- Go `delete(m, k)`. -/
def erase (m : GoMap V) (k : GoString) : GoMap V :=
  ⟨eraseL k m.entries, nodup_eraseL k m.entries m.nodup⟩

/-- Go `len(m)`. -/
def len (m : GoMap V) : Nat := m.entries.length

/-- The keys of the map, in iteration order. -/
def keys (m : GoMap V) : List GoString := m.entries.map Prod.fst

end GoMap

instance {V : Type} [DecidableEq V] : DecidableEq (GoMap V) := fun a b =>
  decidable_of_iff (a.entries = b.entries) (by cases a; cases b; simp)

/-! ## The cache (`cache.go`) -/

/-- Go `type Item struct { key string; value []byte }`. -/
structure Item where
  key : GoString
  value : ByteSlice
deriving DecidableEq

/-- Go `type cache struct { items map[string]Item; mu sync.RWMutex }`. -/
structure cache where
  items : GoMap Item
deriving DecidableEq

/-- Go `newcache`. -/
def newcache : cache := ⟨GoMap.empty⟩

/-- Go `(c *cache) ifexist(k)`. -/
def ifexist (c : cache) (k : GoString) : Bool :=
  match c.items.lookup k with
  | none => false
  | some _ => true

/-- Go `(c *cache) cachesize()`. -/
def cachesize (c : cache) : Nat := c.items.len

/-- Go `(c *cache) addKV(k, v)`: the cache afterwards and the returned message. -/
def addKV (c : cache) (k : GoString) (v : ByteSlice) : cache × List Nat :=
  if ifexist c k != false then
    (c, bytes "The Key: " ++ k ++ bytes " already exists\n")
  else
    (⟨c.items.insert k ⟨[], v⟩⟩, k ++ bytes " Added to cache\n")

/-- Go `(c *cache) updateKV(k, v)`: the cache afterwards and the returned message. -/
def updateKV (c : cache) (k : GoString) (v : ByteSlice) : cache × List Nat :=
  if ifexist c k == false then
    (c, bytes "The Key: " ++ k ++ bytes " doesn't exists\n")
  else
    (⟨c.items.insert k ⟨[], v⟩⟩, k ++ bytes " has been updated\n")

/-- Go `(c *cache) delKV(k)`: the cache afterwards and the returned message. -/
def delKV (c : cache) (k : GoString) : cache × List Nat :=
  if ifexist c k == false then
    (c, bytes "The Key: " ++ k ++ bytes " doesn't exists\n")
  else
    (⟨c.items.erase k⟩, k ++ bytes " deleted\n")

/-- Go `(c *cache) retKV(k)`: `nil` when the key is absent, the stored slice
otherwise. -/
def retKV (c : cache) (k : GoString) : ByteSlice :=
  if ifexist c k == false then
    none
  else
    match c.items.lookup k with
    | some item => item.value
    | none => none

/-! ## Go library functions used by the program

`unicode/utf8`, `strconv`, `bytes`, `strings` and `encoding/json` are not part
of the repository.  The functions below render the parts of them that the
program calls, following the Go standard library.  Bit operations on bytes are
written arithmetically: `x & 0x3F` is `x % 64`, `x >> 6` is `x / 64`,
`x << 6` is `x * 64`, and `|` of bit fields that do not overlap is `+`. -/

/-- Go `utf8.RuneError`, the replacement character U+FFFD. -/
def RuneError : Nat := 0xFFFD

/-- Go `utf8.DecodeRune` (and `DecodeRuneInString`): the rune at the start of `p`
and its width in bytes; `(RuneError, 1)` for an invalid encoding,
`(RuneError, 0)` for the empty input. -/
def DecodeRune : List Nat → Nat × Nat
  | [] => (RuneError, 0)
  | p0 :: rest =>
    if p0 < 0x80 then (p0, 1)
    else if p0 < 0xC2 ∨ 0xF5 ≤ p0 then (RuneError, 1)
    else
      let sz := if p0 < 0xE0 then 2 else if p0 < 0xF0 then 3 else 4
      let lo := if p0 = 0xE0 then 0xA0 else if p0 = 0xF0 then 0x90 else 0x80
      let hi := if p0 = 0xED then 0x9F else if p0 = 0xF4 then 0x8F else 0xBF
      if rest.length + 1 < sz then (RuneError, 1)
      else
        match rest with
        | [] => (RuneError, 1)
        | b1 :: rest1 =>
          if b1 < lo ∨ hi < b1 then (RuneError, 1)
          else if sz ≤ 2 then ((p0 % 32) * 64 + b1 % 64, 2)
          else
            match rest1 with
            | [] => (RuneError, 1)
            | b2 :: rest2 =>
              if b2 < 0x80 ∨ 0xBF < b2 then (RuneError, 1)
              else if sz ≤ 3 then ((p0 % 16) * 4096 + (b1 % 64) * 64 + b2 % 64, 3)
              else
                match rest2 with
                | [] => (RuneError, 1)
                | b3 :: _ =>
                  if b3 < 0x80 ∨ 0xBF < b3 then (RuneError, 1)
                  else ((p0 % 8) * 262144 + (b1 % 64) * 4096 + (b2 % 64) * 64 + b3 % 64, 4)

/-- Go `utf8.EncodeRune` / `utf8.AppendRune`: the UTF-8 encoding of a rune;
surrogates and runes beyond U+10FFFF are encoded as U+FFFD. -/
def EncodeRune (r : Nat) : List Nat :=
  if r ≤ 0x7F then [r]
  else if r ≤ 0x7FF then [0xC0 + r / 64, 0x80 + r % 64]
  else if 0x10FFFF < r ∨ (0xD800 ≤ r ∧ r ≤ 0xDFFF) then [0xEF, 0xBF, 0xBD]
  else if r ≤ 0xFFFF then [0xE0 + r / 4096, 0x80 + r / 64 % 64, 0x80 + r % 64]
  else [0xF0 + r / 262144, 0x80 + r / 4096 % 64, 0x80 + r / 64 % 64, 0x80 + r % 64]

/-- Go `utf8.ValidString`, as a loop over `DecodeRune`: no position decodes to
`(RuneError, 1)`.  The first argument bounds the number of iterations. -/
def validAux : Nat → GoString → Bool
  | 0, _ => true
  | _ + 1, [] => true
  | fuel + 1, b :: rest =>
    let d := DecodeRune (b :: rest)
    if d.1 = RuneError ∧ d.2 = 1 then false
    else validAux fuel ((b :: rest).drop d.2)

/-- Go `utf8.ValidString`. -/
def ValidString (s : GoString) : Bool := validAux s.length s

/-- The hexadecimal digit of a nibble, Go `"0123456789abcdef"[d]`. -/
def lowerhex (d : Nat) : Nat := if d < 10 then 48 + d else 87 + d

/-- The four lower-case hexadecimal digits of a rune below 0x10000. -/
def hex4 (r : Nat) : List Nat :=
  [lowerhex (r / 4096 % 16), lowerhex (r / 256 % 16), lowerhex (r / 16 % 16), lowerhex (r % 16)]

/-- Go `strconv.IsPrint`.  Up to U+00FF the answer is fixed by the code of
`strconv`; beyond, it is read from the Unicode tables of the Go release, which
are the parameter `table`. -/
def IsPrint (table : Nat → Bool) (r : Nat) : Bool :=
  if r ≤ 0xFF then
    if 0x20 ≤ r ∧ r ≤ 0x7E then true
    else if 0xA1 ≤ r ∧ r ≤ 0xFF then r != 0xAD
    else false
  else table r

/-- Go `strconv.appendEscapedRune` with quote `"`, `ASCIIonly` and
`graphicOnly` false. -/
def appendEscapedRune (table : Nat → Bool) (r : Nat) : List Nat :=
  if r = 0x22 ∨ r = 0x5C then [0x5C, r]
  else if IsPrint table r then EncodeRune r
  else if r = 7 then bytes "\\a"
  else if r = 8 then bytes "\\b"
  else if r = 12 then bytes "\\f"
  else if r = 10 then bytes "\\n"
  else if r = 13 then bytes "\\r"
  else if r = 9 then bytes "\\t"
  else if r = 11 then bytes "\\v"
  else if r < 0x20 ∨ r = 0x7F then bytes "\\x" ++ [lowerhex (r / 16), lowerhex (r % 16)]
  else if 0x10FFFF < r ∨ (0xD800 ≤ r ∧ r ≤ 0xDFFF) then bytes "\\ufffd"
  else if r < 0x10000 then bytes "\\u" ++ hex4 r
  else bytes "\\U" ++ hex4 (r / 65536) ++ hex4 (r % 65536)

/-- The loop of Go `strconv.appendQuotedWith`; the first argument bounds the
number of iterations. -/
def quoteAux (table : Nat → Bool) : Nat → GoString → List Nat
  | 0, _ => []
  | _ + 1, [] => []
  | fuel + 1, b :: rest =>
    let d := if 0x80 ≤ b then DecodeRune (b :: rest) else (b, 1)
    if d.2 = 1 ∧ d.1 = RuneError then
      bytes "\\x" ++ [lowerhex (b / 16), lowerhex (b % 16)] ++ quoteAux table fuel rest
    else
      appendEscapedRune table d.1 ++ quoteAux table fuel ((b :: rest).drop d.2)

/-- Go `fmt.Sprintf("%q", s)` for a string `s`, that is `strconv.Quote(s)`. -/
def Quote (table : Nat → Bool) (s : GoString) : List Nat :=
  [0x22] ++ quoteAux table s.length s ++ [0x22]

/-- Go `strings.ToUpper(string(f))` for a one-byte slice `f = [b]`: an ASCII
lower-case letter is upper-cased, another ASCII byte is kept, and a byte that
is not ASCII is not valid UTF-8 and becomes the encoding of U+FFFD. -/
def ToUpper1 (b : Nat) : GoString :=
  if 0x61 ≤ b ∧ b ≤ 0x7A then [b - 32]
  else if b < 0x80 then [b]
  else [0xEF, 0xBF, 0xBD]

/-- Go `bytes.Split(s, []byte(":"))`: the fields of `s` between colons; there is
always at least one field. -/
def Split : List Nat → List (List Nat)
  | [] => [[]]
  | b :: rest =>
    if b = 0x3A then [] :: Split rest
    else
      match Split rest with
      | [] => [[b]]
      | f :: fs => (b :: f) :: fs

/-- Go `fmt.Sprintf("%v", n)` for an `int` that is not negative. -/
def itoa (n : Nat) : List Nat := bytes (Nat.repr n)

/-! ### `encoding/json`: encoding a `map[string]string` -/

/-- Go `htmlSafeSet[b]` of `encoding/json`: the ASCII bytes written as they are
inside a JSON string when HTML escaping is on (the default of an `Encoder`). -/
def htmlSafe (b : Nat) : Bool :=
  0x20 ≤ b ∧ b < 0x80 ∧ b ≠ 0x22 ∧ b ≠ 0x26 ∧ b ≠ 0x3C ∧ b ≠ 0x3E ∧ b ≠ 0x5C

/-- The escape that `appendString` of `encoding/json` writes for an ASCII byte
that is not in `htmlSafeSet` (Go 1.22 and later, where backspace and form feed
have their short escapes). -/
def escapeByte (b : Nat) : List Nat :=
  if b = 0x5C ∨ b = 0x22 then [0x5C, b]
  else if b = 8 then bytes "\\b"
  else if b = 12 then bytes "\\f"
  else if b = 10 then bytes "\\n"
  else if b = 13 then bytes "\\r"
  else if b = 9 then bytes "\\t"
  else bytes "\\u00" ++ [lowerhex (b / 16), lowerhex (b % 16)]

/-- The loop of `appendString` of `encoding/json` (with `escapeHTML`): what is
written between the two quotes.  The first argument bounds the number of
iterations. -/
def appendStringAux : Nat → GoString → List Nat
  | 0, _ => []
  | _ + 1, [] => []
  | fuel + 1, b :: rest =>
    if b < 0x80 then
      (if htmlSafe b then [b] else escapeByte b) ++ appendStringAux fuel rest
    else
      let d := DecodeRune (b :: rest)
      if d.1 = RuneError ∧ d.2 = 1 then
        bytes "\\ufffd" ++ appendStringAux fuel rest
      else if d.1 = 0x2028 ∨ d.1 = 0x2029 then
        bytes "\\u202" ++ [lowerhex (d.1 % 16)] ++ appendStringAux fuel ((b :: rest).drop d.2)
      else
        (b :: rest).take d.2 ++ appendStringAux fuel ((b :: rest).drop d.2)

/-- Go `appendString(dst, src, true)` of `encoding/json`: the JSON string
literal of a Go string. -/
def appendString (src : GoString) : List Nat :=
  [0x22] ++ appendStringAux src.length src ++ [0x22]

/-- Go `strings.Compare(a, b) < 0`: byte-wise lexicographic order. -/
def ltString : GoString → GoString → Bool
  | [], [] => false
  | [], _ :: _ => true
  | _ :: _, [] => false
  | a :: as, b :: bs => decide (a < b) || (decide (a = b) && ltString as bs)

/-- Insertion of an entry into a list of entries sorted by key. -/
def insertSorted (e : GoString × GoString) :
    List (GoString × GoString) → List (GoString × GoString)
  | [] => [e]
  | e' :: l => if ltString e'.1 e.1 then e' :: insertSorted e l else e :: e' :: l

/-- The entries of a map sorted by key, as the map encoder of `encoding/json`
sorts them before writing. -/
def sortEntries : List (GoString × GoString) → List (GoString × GoString)
  | [] => []
  | e :: l => insertSorted e (sortEntries l)

/-- The loop of the map encoder of `encoding/json` over the sorted entries:
a comma before every entry but the first (`i` is the loop index). -/
def encodeMembers : Nat → List (GoString × GoString) → List Nat
  | _, [] => []
  | i, (k, v) :: rest =>
    (if i > 0 then [0x2C] else []) ++ appendString k ++ [0x3A] ++ appendString v
      ++ encodeMembers (i + 1) rest

/-- What Go `json.NewEncoder(w).Encode(nc)` writes for a non-nil
`nc : map[string]string`: the object with its keys sorted and a final newline. -/
def Encode (nc : GoMap GoString) : List Nat :=
  [0x7B] ++ encodeMembers 0 (sortEntries nc.entries) ++ [0x7D] ++ [0x0A]

/-! ### `encoding/json`: decoding into a `map[string]string` -/

/-- Go `isSpace` of the JSON scanner. -/
def isSpace (c : Nat) : Bool := c = 0x20 ∨ c = 0x09 ∨ c = 0x0D ∨ c = 0x0A

/-- Skip the white space the scanner skips between tokens. -/
def skipSpace : List Nat → List Nat
  | [] => []
  | c :: rest => if isSpace c then skipSpace rest else c :: rest

/-- A decimal digit. -/
def isDigit (c : Nat) : Bool := 0x30 ≤ c ∧ c ≤ 0x39

/-- A hexadecimal digit, in either case. -/
def isHex (c : Nat) : Bool :=
  (0x30 ≤ c ∧ c ≤ 0x39) ∨ (0x61 ≤ c ∧ c ≤ 0x66) ∨ (0x41 ≤ c ∧ c ≤ 0x46)

/-- The states of the JSON scanner inside a string literal: Go `stateInString`,
`stateInStringEsc`, and `stateInStringEscU`, `stateInStringEscU1`,
`stateInStringEscU12`, `stateInStringEscU123` (after `\u` and 0 to 3 of its
hexadecimal digits). -/
inductive StringState where
  | inString
  | inStringEsc
  | inStringEscU
  | inStringEscU1
  | inStringEscU12
  | inStringEscU123

/-- The scanner inside a string literal, byte by byte, from a state: the raw
bytes read up to the closing quote and the input after the closing quote.
Control characters, malformed escapes and the end of the input are syntax
errors. -/
def scanStringFrom : StringState → List Nat → Option (List Nat × List Nat)
  | _, [] => none
  | .inString, c :: rest =>
    if c = 0x22 then some ([], rest)
    else if c = 0x5C then
      (scanStringFrom .inStringEsc rest).map (fun p => (c :: p.1, p.2))
    else if c < 0x20 then none
    else (scanStringFrom .inString rest).map (fun p => (c :: p.1, p.2))
  | .inStringEsc, c :: rest =>
    if c = 0x62 ∨ c = 0x66 ∨ c = 0x6E ∨ c = 0x72 ∨ c = 0x74 ∨ c = 0x5C ∨ c = 0x2F
        ∨ c = 0x22 then
      (scanStringFrom .inString rest).map (fun p => (c :: p.1, p.2))
    else if c = 0x75 then
      (scanStringFrom .inStringEscU rest).map (fun p => (c :: p.1, p.2))
    else none
  | .inStringEscU, c :: rest =>
    if isHex c then (scanStringFrom .inStringEscU1 rest).map (fun p => (c :: p.1, p.2))
    else none
  | .inStringEscU1, c :: rest =>
    if isHex c then (scanStringFrom .inStringEscU12 rest).map (fun p => (c :: p.1, p.2))
    else none
  | .inStringEscU12, c :: rest =>
    if isHex c then (scanStringFrom .inStringEscU123 rest).map (fun p => (c :: p.1, p.2))
    else none
  | .inStringEscU123, c :: rest =>
    if isHex c then (scanStringFrom .inString rest).map (fun p => (c :: p.1, p.2))
    else none

/-- The scanner on a string literal, after the opening quote: the raw contents
of the literal and the input after the closing quote. -/
def scanString (inp : List Nat) : Option (List Nat × List Nat) :=
  scanStringFrom .inString inp

/-- Skip a run of decimal digits. -/
def skipDigits : List Nat → List Nat
  | [] => []
  | c :: rest => if isDigit c then skipDigits rest else c :: rest

/-- The scanner after the integer part of a number (`state0`, `state1` once the
digits are read): an optional fraction and an optional exponent.  Returns the
input after the number. -/
def scanFracExp (inp : List Nat) : Option (List Nat) :=
  let afterFrac : Option (List Nat) :=
    match inp with
    | c :: d :: rest =>
      if c = 0x2E then (if isDigit d then some (skipDigits rest) else none) else some inp
    | [c] => if c = 0x2E then none else some inp
    | [] => some inp
  match afterFrac with
  | none => none
  | some r =>
    match r with
    | e :: rest =>
      if e = 0x65 ∨ e = 0x45 then
        match rest with
        | s :: rest1 =>
          if s = 0x2B ∨ s = 0x2D then
            match rest1 with
            | d :: rest2 => if isDigit d then some (skipDigits rest2) else none
            | [] => none
          else if isDigit s then some (skipDigits rest1)
          else none
        | [] => none
      else some r
    | [] => some r

/-- The scanner on a number, from its first character (`-` or a digit). -/
def scanNumber (inp : List Nat) : Option (List Nat) :=
  let body : List Nat := match inp with
    | c :: rest => if c = 0x2D then rest else inp
    | [] => inp
  match body with
  | c :: rest =>
    if c = 0x30 then scanFracExp rest
    else if 0x31 ≤ c ∧ c ≤ 0x39 then scanFracExp (skipDigits rest)
    else none
  | [] => none

/-- The scanner on one of the literals `true`, `false`, `null`: the input after
the expected word, when the input starts with it. -/
def scanWord : List Nat → List Nat → Option (List Nat)
  | [], inp => some inp
  | _ :: _, [] => none
  | w :: ws, c :: rest => if c = w then scanWord ws rest else none

/-- What the decoder does with a value that is to be stored in a Go `string`:
a string literal (with its raw contents) is stored, `null` leaves the zero
value, every other kind of value is a type mismatch. -/
inductive JKind where
  | str (raw : List Nat)
  | null
  | mismatch

/-- A JSON value as far as decoding into `map[string]string` looks at it. -/
inductive JValue where
  | str (raw : List Nat)
  | null
  | scalar
  | array
  | object (members : List (List Nat × JKind))

/-- The kind of a value that is the value of an object member. -/
def JValue.kind : JValue → JKind
  | .str raw => .str raw
  | .null => .null
  | _ => .mismatch

/-- Go `maxNestingDepth` of the JSON scanner. -/
def maxNestingDepth : Nat := 10000

mutual

/-- The scanner on a value (`stateBeginValue`), with the nesting depth so far:
the value read and the input after it, `none` for a syntax error.  The first
argument bounds the depth of the recursion; every two steps down read at least
one byte, so twice the length of the input plus two is enough. -/
def parseValue : Nat → Nat → List Nat → Option (JValue × List Nat)
  | 0, _, _ => none
  | fuel + 1, depth, inp =>
    match skipSpace inp with
    | [] => none
    | c :: rest =>
      if c = 0x7B then
        if maxNestingDepth < depth + 1 then none
        else
          match skipSpace rest with
          | [] => none
          | c1 :: rest1 =>
            if c1 = 0x7D then some (.object [], rest1)
            else
              match parseMembers fuel (depth + 1) (c1 :: rest1) with
              | none => none
              | some (ms, r) => some (.object ms, r)
      else if c = 0x5B then
        if maxNestingDepth < depth + 1 then none
        else
          match skipSpace rest with
          | [] => none
          | c1 :: rest1 =>
            if c1 = 0x5D then some (.array, rest1)
            else
              match parseElements fuel (depth + 1) (c1 :: rest1) with
              | none => none
              | some r => some (.array, r)
      else if c = 0x22 then
        match scanString rest with
        | none => none
        | some (raw, r) => some (.str raw, r)
      else if c = 0x2D ∨ isDigit c then
        match scanNumber (c :: rest) with
        | none => none
        | some r => some (.scalar, r)
      else if c = 0x74 then
        match scanWord (bytes "rue") rest with
        | none => none
        | some r => some (.scalar, r)
      else if c = 0x66 then
        match scanWord (bytes "alse") rest with
        | none => none
        | some r => some (.scalar, r)
      else if c = 0x6E then
        match scanWord (bytes "ull") rest with
        | none => none
        | some r => some (.null, r)
      else none

/-- The scanner on the members of an object, from a key (`stateBeginString`) to
the closing brace. -/
def parseMembers : Nat → Nat → List Nat → Option (List (List Nat × JKind) × List Nat)
  | 0, _, _ => none
  | fuel + 1, depth, inp =>
    match skipSpace inp with
    | [] => none
    | q :: rest =>
      if q = 0x22 then
        match scanString rest with
        | none => none
        | some (rawKey, r1) =>
          match skipSpace r1 with
          | [] => none
          | colon :: r2 =>
            if colon = 0x3A then
              match parseValue fuel depth r2 with
              | none => none
              | some (v, r3) =>
                match skipSpace r3 with
                | [] => none
                | sep :: r4 =>
                  if sep = 0x2C then
                    match parseMembers fuel depth r4 with
                    | none => none
                    | some (ms, r) => some ((rawKey, v.kind) :: ms, r)
                  else if sep = 0x7D then some ([(rawKey, v.kind)], r4)
                  else none
            else none
      else none

/-- The scanner on the elements of an array, from an element to the closing
bracket. -/
def parseElements : Nat → Nat → List Nat → Option (List Nat)
  | 0, _, _ => none
  | fuel + 1, depth, inp =>
    match parseValue fuel depth inp with
    | none => none
    | some (_, r1) =>
      match skipSpace r1 with
      | [] => none
      | sep :: r2 =>
        if sep = 0x2C then parseElements fuel depth r2
        else if sep = 0x5D then some r2
        else none

end

/-- Go `checkValid` of `encoding/json` together with the value it has scanned:
the input is one JSON value between optional white space. -/
def checkValid (data : List Nat) : Option JValue :=
  match parseValue (2 * data.length + 2) 0 data with
  | none => none
  | some (v, rest) => if skipSpace rest = [] then some v else none

/-- The value of a hexadecimal digit, `none` for another byte. -/
def hexVal (c : Nat) : Option Nat :=
  if 0x30 ≤ c ∧ c ≤ 0x39 then some (c - 0x30)
  else if 0x61 ≤ c ∧ c ≤ 0x66 then some (c - 0x61 + 10)
  else if 0x41 ≤ c ∧ c ≤ 0x46 then some (c - 0x41 + 10)
  else none

/-- Go `getu4` of `encoding/json`: the rune of a `\uXXXX` escape at the start
of `s`; `none` stands for the result `-1`. -/
def getu4 : List Nat → Option Nat
  | b :: u :: h1 :: h2 :: h3 :: h4 :: _ =>
    if b ≠ 0x5C ∨ u ≠ 0x75 then none
    else
      match hexVal h1, hexVal h2, hexVal h3, hexVal h4 with
      | some d1, some d2, some d3, some d4 => some (((d1 * 16 + d2) * 16 + d3) * 16 + d4)
      | _, _, _, _ => none
  | _ => none

/-- Go `utf16.IsSurrogate`. -/
def IsSurrogate (r : Nat) : Bool := 0xD800 ≤ r ∧ r < 0xE000

/-- Go `utf16.DecodeRune`: the rune of a surrogate pair, U+FFFD when the two
are not a valid pair. -/
def utf16DecodeRune (r1 r2 : Nat) : Nat :=
  if 0xD800 ≤ r1 ∧ r1 < 0xDC00 ∧ 0xDC00 ≤ r2 ∧ r2 < 0xE000 then
    (r1 - 0xD800) * 1024 + (r2 - 0xDC00) + 0x10000
  else 0xFFFD

/-- What Go `unquoteBytes` of `encoding/json` does at a backslash, on the input
after the backslash: the bytes it writes and the input left to read.  A
`\uXXXX` escape is written as the UTF-8 encoding of its rune; a surrogate is
combined with a following `\uXXXX` escape when the two are a valid pair and
is replaced by U+FFFD otherwise.  `none` is the result `ok = false`. -/
def unquoteEscape : List Nat → Option (List Nat × List Nat)
  | [] => none
  | e :: rest1 =>
    if e = 0x22 ∨ e = 0x5C ∨ e = 0x2F ∨ e = 0x27 then some ([e], rest1)
    else if e = 0x62 then some ([8], rest1)
    else if e = 0x66 then some ([12], rest1)
    else if e = 0x6E then some ([10], rest1)
    else if e = 0x72 then some ([13], rest1)
    else if e = 0x74 then some ([9], rest1)
    else if e = 0x75 then
      match getu4 (0x5C :: e :: rest1) with
      | none => none
      | some rr =>
        let rest2 := rest1.drop 4
        if IsSurrogate rr then
          let dec := match getu4 rest2 with
            | some rr1 => utf16DecodeRune rr rr1
            | none => 0xFFFD
          if dec ≠ 0xFFFD then some (EncodeRune dec, rest2.drop 6)
          else some (EncodeRune 0xFFFD, rest2)
        else some (EncodeRune rr, rest2)
    else none

/-- The loop of Go `unquoteBytes` of `encoding/json` on the raw contents of a
string literal: escapes are replaced and invalid UTF-8 is coerced to U+FFFD.
`none` is the result `ok = false`.  The first argument bounds the number of
iterations. -/
def unquoteAux : Nat → List Nat → Option (List Nat)
  | 0, _ => some []
  | _ + 1, [] => some []
  | fuel + 1, c :: rest =>
    if c = 0x5C then
      match unquoteEscape rest with
      | none => none
      | some (out, rest') => (unquoteAux fuel rest').map (fun t => out ++ t)
    else if c = 0x22 ∨ c < 0x20 then none
    else if c < 0x80 then (unquoteAux fuel rest).map (fun t => c :: t)
    else
      let d := DecodeRune (c :: rest)
      (unquoteAux fuel ((c :: rest).drop d.2)).map (fun t => EncodeRune d.1 ++ t)

/-- Go `unquoteBytes` of `encoding/json`, on the contents between the quotes. -/
def unquote (raw : List Nat) : Option GoString := unquoteAux raw.length raw

/-- The loop of the object decoder of `encoding/json` into a
`map[string]string`: every member is stored under its unquoted key; a string
is stored unquoted, `null` stores the empty string, and a value of another
kind stores the empty string and records a type error (the flag).  A literal
that does not unquote cannot come out of the scanner; the decoder stops there. -/
def decodeMembers : List (List Nat × JKind) → GoMap GoString → Bool → GoMap GoString × Bool
  | [], jm, err => (jm, err)
  | (rawKey, kind) :: ms, jm, err =>
    match unquote rawKey with
    | none => (jm, true)
    | some key =>
      match kind with
      | .str raw =>
        match unquote raw with
        | none => (jm, true)
        | some v => decodeMembers ms (jm.insert key v) err
      | .null => decodeMembers ms (jm.insert key []) err
      | .mismatch => decodeMembers ms (jm.insert key []) true

/-- Go `json.Unmarshal(data, &jm)` for `jm : map[string]string`, non-nil: the map
afterwards and whether an error is returned.  On a syntax error nothing is
decoded.  An object is decoded member by member; `null` sets the map to `nil`
(which ranges like the empty map); any other value is a type error. -/
def Unmarshal (data : List Nat) (jm : GoMap GoString) : GoMap GoString × Bool :=
  match checkValid data with
  | none => (jm, true)
  | some (.object ms) => decodeMembers ms jm false
  | some .null => (GoMap.empty, false)
  | some _ => (jm, true)

/-! ## Persistence (`cache.go`) -/

/-- The map `nc` that `Save` builds: `nc[k] = string(c.items[k].value)` for
every key of the cache. -/
def saveMap (c : cache) : GoMap GoString :=
  c.items.keys.foldl
    (fun nc k =>
      nc.insert k (toGoString (match c.items.lookup k with
        | some item => item.value
        | none => none)))
    GoMap.empty

/-- Go `(c *cache) Save(w)`: the bytes handed to the writer `w`. -/
def Save (c : cache) : List Nat := Encode (saveMap c)

/-- The file system as the program meets it.  `ReadFile` is `ioutil.ReadFile`
(`none` when it returns an error); `Create`, `Write` and `Close` tell whether
`os.Create`, the write of the given bytes and `Close` succeed on a file name. -/
structure OS where
  ReadFile : GoString → Option (List Nat)
  Create : GoString → Bool
  Write : GoString → List Nat → Bool
  Close : GoString → Bool

/-- The errors `SaveFile` can return. -/
inductive SaveError where
  | create
  | write
  | close
deriving DecidableEq

/-- Go `(c *cache) SaveFile(fname)`: the returned error, `none` for `nil`. -/
def SaveFile (os : OS) (c : cache) (fname : GoString) : Option SaveError :=
  if os.Create fname = false then some SaveError.create
  else if os.Write fname (Save c) = false then some SaveError.write
  else if os.Close fname = false then some SaveError.close
  else none

/-- Go `(c *cache) LoadFile(fname)`: the cache afterwards and the returned flag.
The error of `json.Unmarshal` is not looked at. -/
def LoadFile (os : OS) (c : cache) (fname : GoString) : cache × Bool :=
  match os.ReadFile fname with
  | none => (c, false)
  | some cont =>
    let jm : GoMap GoString := GoMap.empty
    let cleared : GoMap Item :=
      if c.items.len > 0 then c.items.keys.foldl (fun items k => items.erase k) c.items
      else c.items
    let jm := (Unmarshal cont jm).1
    let items := jm.entries.foldl
      (fun items kv => items.insert kv.1 ⟨[], toByteSlice kv.2⟩) cleared
    (⟨items⟩, true)

/-- Go `(c *cache) Printdb()`; the entries are listed in the iteration order of
the map. -/
def Printdb (table : Nat → Bool) (c : cache) : List Nat :=
  if c.items.len = 0 then bytes "Cache is empty"
  else
    let js := c.items.entries.foldl
      (fun js kv => js ++ (Quote table kv.1 ++ bytes ":" ++
        Quote table (toGoString kv.2.value) ++ bytes ","))
      (bytes "[")
    js.take (js.length - 1) ++ bytes "]"

/-! ## The command protocol (`main.go`) -/

/-- The byte slice `m` handed to `processmsg`: its `len(m)` bytes, and the bytes
of its backing array between `len(m)` and `cap(m)` (the transports pass
`buffer[:n]` of a 2048-byte buffer). -/
structure Buffer where
  data : List Nat
  spare : List Nat

/-- Go `m[:1]`: a slice expression may reach up to the capacity; it faults
(`none`) when `cap(m) < 1`. -/
def Buffer.upTo1 (m : Buffer) : Option Nat :=
  match m.data with
  | b :: _ => some b
  | [] =>
    match m.spare with
    | b :: _ => some b
    | [] => none

/-- Go `m[2:]`: faults (`none`) when `len(m) < 2`. -/
def Buffer.from2 (m : Buffer) : Option (List Nat) :=
  if 2 ≤ m.data.length then some (m.data.drop 2) else none

/-- Go `(c *cache) processmsg(m)`: `none` when the call ends in a run-time
panic (slice bounds or index out of range), otherwise the cache afterwards and
the reply `rv` (`none` for `nil`, no reply).  `table` is the Unicode table
behind `%q`.  The value handed to `addKV` and `updateKV`,
`s[1][:len(string(s[1]))]`, is the field `s[1]` itself, a slice that is not
`nil`; `s[1]` faults when `m[2:]` holds no colon. -/
def processmsg (os : OS) (table : Nat → Bool) (c : cache) (m : Buffer) :
    Option (cache × ByteSlice) :=
  match m.upTo1 with
  | none => none
  | some f =>
    let op := ToUpper1 f
    if op = bytes "A" then
      match m.from2 with
      | none => none
      | some m2 =>
        match Split m2 with
        | s0 :: s1 :: _ =>
          let r := addKV c s0 (some s1)
          some (r.1, some r.2)
        | _ => none
    else if op = bytes "U" then
      match m.from2 with
      | none => none
      | some m2 =>
        match Split m2 with
        | s0 :: s1 :: _ =>
          let r := updateKV c s0 (some s1)
          some (r.1, some r.2)
        | _ => none
    else if op = bytes "D" then
      match m.from2 with
      | none => none
      | some m2 =>
        let r := delKV c m2
        some (r.1, some r.2)
    else if op = bytes "R" then
      match m.from2 with
      | none => none
      | some m2 =>
        match retKV c m2 with
        | some v =>
          some (c, some (bytes "\x7b" ++ Quote table (bytes "key") ++ bytes ": " ++
            Quote table m2 ++ bytes ", " ++ Quote table (bytes "value") ++ bytes ": " ++
            Quote table v ++ bytes "\x7d"))
        | none => some (c, some (Quote table m2 ++ bytes " does not exist"))
    else if op = bytes "I" then
      let v := cachesize c
      some (c, some (bytes "Cache has " ++ itoa v ++ bytes " items"))
    else if op = bytes "L" then
      match m.from2 with
      | none => none
      | some m2 =>
        let r := LoadFile os c m2
        if r.2 = false then
          some (r.1, some (bytes "File failed to load please check location"))
        else
          some (r.1, some (bytes "File Loaded"))
    else if op = bytes "S" then
      match m.from2 with
      | none => none
      | some m2 =>
        let err := SaveFile os c m2
        let rv : ByteSlice :=
          if err ≠ none then some (bytes "File was not able to save") else none
        let rv : ByteSlice := (fun _ => some (bytes "File Saved")) rv
        some (c, rv)
    else if op = bytes "P" then
      some (c, some (Printdb table c))
    else
      some (c, none)

/-! ## The HTTP handlers (`cache.go`)

`vars` of the Go code are the path variables `key` and `value`; each handler
returns the cache afterwards and the body it writes. -/

/-- Go `(c *cache) Retrieve(w, r)`. -/
def Retrieve (c : cache) (key : GoString) : cache × List Nat :=
  let v := retKV c key
  let kv : GoMap GoString :=
    (GoMap.empty.insert (bytes "key") key).insert (bytes "value") (toGoString v)
  (c, Encode kv)

/-! ## Auxiliary definitions of the statements and proofs -/

/-- The messages on which `processmsg` runs to its end.  With `b` the byte of
`m[:1]` (which needs `cap(m) ≥ 1`): for `A` and `U`, in either case, `m` has at
least two bytes and `m[2:]` holds a colon; for `D`, `R`, `L` and `S`, `m` has at
least two bytes; for every other byte there is no further condition. -/
def completes (m : Buffer) : Bool :=
  match m.upTo1 with
  | none => false
  | some b =>
    if ToUpper1 b = bytes "A" ∨ ToUpper1 b = bytes "U" then
      decide (2 ≤ m.data.length) && decide (0x3A ∈ m.data.drop 2)
    else if ToUpper1 b = bytes "D" ∨ ToUpper1 b = bytes "R" ∨ ToUpper1 b = bytes "L"
        ∨ ToUpper1 b = bytes "S" then
      decide (2 ≤ m.data.length)
    else true

/-- An atom of an encoded string: the text `enc` that the encoder writes for the
bytes `chunk` of the source string.  The scanner steps over `enc` inside a
string literal, and `unquoteBytes` turns it back into `chunk` in one iteration
of its loop. -/
def Atom (enc chunk : List Nat) : Prop :=
  0 < enc.length ∧
    (∀ r, scanString (enc ++ r) = (scanString r).map (fun p => (enc ++ p.1, p.2))) ∧
    (∀ fuel r, unquoteAux (fuel + 1) (enc ++ r) = (unquoteAux fuel r).map (fun t => chunk ++ t))

/-- What the scanner and the decoder see of the entries written by the encoder:
the raw contents of the two string literals of every member. -/
def rawMembers (es : List (GoString × GoString)) : List (List Nat × JKind) :=
  es.map (fun e => (appendStringAux e.1.length e.1, JKind.str (appendStringAux e.2.length e.2)))

/-- The text of one pair in the listing of `Printdb`: `%q:%q` of the key and of
the value as a string. -/
def pairText (table : Nat → Bool) (kv : GoString × Item) : List Nat :=
  Quote table kv.1 ++ bytes ":" ++ Quote table (toGoString kv.2.value)

/-- The pairs listed by `Printdb`, one text per entry of the map, in the order
of the iteration. -/
def listedPairs (table : Nat → Bool) (c : cache) : List (List Nat) :=
  c.items.entries.map (pairText table)

/-- Texts joined by commas. -/
def joinComma : List (List Nat) → List Nat
  | [] => []
  | [x] => x
  | x :: y :: rest => x ++ bytes "," ++ joinComma (y :: rest)

/-- The replies of `addKV(k, v)` called once for every value of a list, one call
after the other, and the store after the last call. -/
def addKVs (c : cache) (k : GoString) : List ByteSlice → cache × List (List Nat)
  | [] => (c, [])
  | v :: vs =>
    let r := addKV c k v
    let rs := addKVs r.1 k vs
    (rs.1, r.2 :: rs.2)

/-! ## Concrete inputs of the closed statements -/

/-- A file system without files on which nothing can be created. -/
def noFiles : OS := ⟨fun _ => none, fun _ => false, fun _ _ => false, fun _ => false⟩

/-- A Unicode table for `%q` under which no rune beyond U+00FF is printable;
the closed statements below only quote ASCII text. -/
def asciiTable : Nat → Bool := fun _ => false

/-- The cache holding the one entry `k` with value `v`. -/
def oneEntry : cache := (addKV newcache (bytes "k") (some (bytes "v"))).1

/-- A file system whose only file, `bad.json`, holds the text `not json`. -/
def badFile : OS :=
  ⟨fun f => if f = bytes "bad.json" then some (bytes "not json") else none,
    fun _ => true, fun _ _ => true, fun _ => true⟩

/-- A file system whose only file, `db.json`, holds a snapshot with the one
pair `a`, `x`. -/
def goodFile : OS :=
  ⟨fun f => if f = bytes "db.json" then some (bytes "\x7b\"a\":\"x\"\x7d\n") else none,
    fun _ => true, fun _ _ => true, fun _ => true⟩

/-- The mapping with the one pair `a`, `x`. -/
def pairAX : GoMap GoString := GoMap.empty.insert (bytes "a") (bytes "x")

/-- The cache holding the key `k` with a value of valid UTF-8 that needs every
kind of escape: a two-byte rune, a quote, `<`, a line feed and U+2028. -/
def utf8Entry : cache :=
  (addKV newcache (bytes "k") (some [0xC3, 0xA9, 0x22, 0x3C, 0x0A, 0xE2, 0x80, 0xA8])).1

/-- The cache holding the key `k` with the one-byte value `0xFF`, which is not
valid UTF-8. -/
def invalidEntry : cache := (addKV newcache (bytes "k") (some [0xFF])).1

/-- The cache holding `k` with value `v` and `j` with value `u`. -/
def twoEntries : cache := (addKV oneEntry (bytes "j") (some (bytes "u"))).1

theorem lookupL_insertL_self {V : Type} (k : GoString) (v : V) (l : List (GoString × V)) :
    lookupL k (insertL k v l) = some v := by
  induction l with
  | nil => simp [insertL, lookupL]
  | cons e l ih =>
    obtain ⟨k', v'⟩ := e
    by_cases h : k' = k
    · simp [insertL, lookupL, h]
    · simp [insertL, lookupL, h, ih]

theorem lookupL_insertL_ne {V : Type} (k a : GoString) (v : V) (l : List (GoString × V))
    (h : a ≠ k) : lookupL a (insertL k v l) = lookupL a l := by
  induction l with
  | nil => simp [insertL, lookupL, Ne.symm h]
  | cons e l ih =>
    obtain ⟨k', v'⟩ := e
    by_cases hk : k' = k
    · subst hk
      simp [insertL, lookupL, Ne.symm h]
    · by_cases ha : k' = a
      · subst ha
        simp [insertL, lookupL, h]
      · simp [insertL, lookupL, hk, ha, ih]

theorem lookupL_eraseL_self {V : Type} (k : GoString) (l : List (GoString × V)) :
    lookupL k (eraseL k l) = none := by
  induction l with
  | nil => simp [eraseL, lookupL]
  | cons e l ih =>
    obtain ⟨k', v'⟩ := e
    by_cases h : k' = k
    · simp [eraseL, h, ih]
    · simp [eraseL, lookupL, h, ih]

theorem lookupL_eraseL_ne {V : Type} (k a : GoString) (l : List (GoString × V))
    (h : a ≠ k) : lookupL a (eraseL k l) = lookupL a l := by
  induction l with
  | nil => simp [eraseL, lookupL]
  | cons e l ih =>
    obtain ⟨k', v'⟩ := e
    by_cases hk : k' = k
    · subst hk
      simp [eraseL, lookupL, Ne.symm h, ih]
    · by_cases ha : k' = a
      · subst ha
        simp [eraseL, lookupL, h]
      · simp [eraseL, lookupL, hk, ha, ih]

theorem lookupL_eq_none_iff {V : Type} (k : GoString) (l : List (GoString × V)) :
    lookupL k l = none ↔ k ∉ l.map Prod.fst := by
  induction l with
  | nil => simp [lookupL]
  | cons e l ih =>
    obtain ⟨k', v'⟩ := e
    by_cases h : k' = k
    · simp [lookupL, h]
    · simp [lookupL, h, ih, Ne.symm h]

theorem ifexist_eq_false_iff (c : cache) (k : GoString) :
    ifexist c k = false ↔ c.items.lookup k = none := by
  unfold ifexist
  cases c.items.lookup k <;> simp

theorem ifexist_eq_true_iff (c : cache) (k : GoString) :
    ifexist c k = true ↔ ∃ item, c.items.lookup k = some item := by
  unfold ifexist
  cases c.items.lookup k <;> simp

theorem retKV_insert_self (c : cache) (k : GoString) (v : ByteSlice) :
    retKV ⟨c.items.insert k ⟨[], v⟩⟩ k = v := by
  simp [retKV, ifexist, GoMap.lookup, GoMap.insert, lookupL_insertL_self]

/-! ## Facts about `bytes.Split` -/

theorem Split_ne_nil (s : List Nat) : Split s ≠ [] := by
  cases s with
  | nil => simp [Split]
  | cons b rest =>
    by_cases h : b = 0x3A
    · simp [Split, h]
    · simp only [Split, if_neg h]
      split <;> simp

theorem Split_field_colon (k rest : List Nat) (hk : 0x3A ∉ k) :
    Split (k ++ 0x3A :: rest) = k :: Split rest := by
  induction k with
  | nil => simp [Split]
  | cons b k ih =>
    have hb : b ≠ 0x3A := fun h => hk (by simp [h])
    have hk' : 0x3A ∉ k := fun h => hk (by simp [h])
    simp [Split, hb, ih hk']

theorem Split_no_colon (k : List Nat) (hk : 0x3A ∉ k) : Split k = [k] := by
  induction k with
  | nil => simp [Split]
  | cons b k ih =>
    have hb : b ≠ 0x3A := fun h => hk (by simp [h])
    have hk' : 0x3A ∉ k := fun h => hk (by simp [h])
    simp [Split, hb, ih hk']

theorem Split_length_ge_two_iff (s : List Nat) : 2 ≤ (Split s).length ↔ 0x3A ∈ s := by
  induction s with
  | nil => simp [Split]
  | cons b s ih =>
    by_cases hb : b = 0x3A
    · subst hb
      have := Split_ne_nil s
      cases hs : Split s with
      | nil => exact absurd hs this
      | cons f fs => simp [Split, hs]
    · cases hs : Split s with
      | nil => exact absurd hs (Split_ne_nil s)
      | cons f fs =>
        rw [hs] at ih
        simp only [Split, if_neg hb, hs, List.length_cons, List.mem_cons]
        rw [List.length_cons] at ih
        constructor
        · intro h; exact Or.inr (ih.mp h)
        · rintro (h | h)
          · exact absurd h.symm hb
          · exact ih.mpr h

/-! ## Facts about clearing and refilling a map -/

theorem eraseL_eq_filter {V : Type} (k : GoString) (l : List (GoString × V)) :
    eraseL k l = l.filter (fun e => decide (e.1 ≠ k)) := by
  induction l with
  | nil => rfl
  | cons e l ih =>
    obtain ⟨k', v'⟩ := e
    by_cases h : k' = k
    · simp [eraseL, h, ih]
    · simp [eraseL, h, ih]

theorem foldl_erase_entries {V : Type} (ks : List GoString) (m : GoMap V) :
    (ks.foldl (fun items k => items.erase k) m).entries =
      m.entries.filter (fun e => decide (e.1 ∉ ks)) := by
  induction ks generalizing m with
  | nil => simp
  | cons k ks ih =>
    rw [List.foldl_cons, ih]
    simp only [GoMap.erase, eraseL_eq_filter, List.filter_filter]
    congr 1
    funext e
    simp only [List.mem_cons, not_or, Bool.decide_and, ne_eq]
    rw [Bool.and_comm]

theorem clear_entries {V : Type} (m : GoMap V) :
    (if m.len > 0 then m.keys.foldl (fun items k => items.erase k) m else m).entries = [] := by
  by_cases h : m.len > 0
  · rw [if_pos h, foldl_erase_entries]
    simp only [List.filter_eq_nil_iff, GoMap.keys]
    intro e he
    simp only [decide_eq_true_eq, not_not]
    exact List.mem_map_of_mem Prod.fst he
  · rw [if_neg h]
    simp only [GoMap.len, gt_iff_lt, not_lt, Nat.le_zero, List.length_eq_zero] at h
    exact h

theorem insertL_of_not_mem {V : Type} (k : GoString) (v : V) (l : List (GoString × V))
    (h : k ∉ l.map Prod.fst) : insertL k v l = l ++ [(k, v)] := by
  induction l with
  | nil => rfl
  | cons e l ih =>
    obtain ⟨k', v'⟩ := e
    simp only [List.map_cons, List.mem_cons, not_or] at h
    simp [insertL, Ne.symm h.1, ih h.2]

theorem foldl_insert_entries {V W : Type} (f : W → V) (es : List (GoString × W))
    (acc : GoMap V) (hes : (es.map Prod.fst).Nodup)
    (hdis : ∀ k, k ∈ es.map Prod.fst → k ∉ acc.entries.map Prod.fst) :
    (es.foldl (fun items kv => items.insert kv.1 (f kv.2)) acc).entries =
      acc.entries ++ es.map (fun kv => (kv.1, f kv.2)) := by
  induction es generalizing acc with
  | nil => simp
  | cons e es ih =>
    rw [List.map_cons, List.nodup_cons] at hes
    have he : e.1 ∉ acc.entries.map Prod.fst := hdis e.1 (by simp)
    rw [List.foldl_cons, ih _ hes.2]
    · simp [GoMap.insert, insertL_of_not_mem _ _ _ he]
    · intro k hk
      simp only [GoMap.insert, insertL_of_not_mem _ _ _ he, List.map_append, List.map_cons,
        List.map_nil, List.mem_append, List.mem_singleton, not_or]
      refine ⟨hdis k (by simp [hk]), ?_⟩
      rintro rfl
      exact hes.1 hk

theorem lookupL_map_value {V W : Type} (f : W → V) (k : GoString) (l : List (GoString × W)) :
    lookupL k (l.map (fun kv => (kv.1, f kv.2))) = (lookupL k l).map f := by
  induction l with
  | nil => rfl
  | cons e l ih =>
    obtain ⟨k', v'⟩ := e
    by_cases h : k' = k
    · simp [lookupL, h]
    · simp [lookupL, h, ih]

/-! ## Facts about UTF-8 decoding and encoding -/

theorem EncodeRune_two (b b1 : Nat) (h1 : 0xC2 ≤ b) (h2 : b < 0xE0) (h3 : 0x80 ≤ b1)
    (h4 : b1 ≤ 0xBF) : EncodeRune ((b % 32) * 64 + b1 % 64) = [b, b1] := by
  have e1 : ¬ ((b % 32) * 64 + b1 % 64 ≤ 0x7F) := by omega
  have e2 : (b % 32) * 64 + b1 % 64 ≤ 0x7FF := by omega
  have a1 : 0xC0 + ((b % 32) * 64 + b1 % 64) / 64 = b := by omega
  have a2 : 0x80 + ((b % 32) * 64 + b1 % 64) % 64 = b1 := by omega
  simp only [EncodeRune, if_neg e1, if_pos e2, a1, a2]

theorem EncodeRune_three (b b1 b2 : Nat) (h1 : 0xE0 ≤ b) (h2 : b < 0xF0)
    (h3 : (if b = 0xE0 then 0xA0 else 0x80) ≤ b1) (h4 : b1 ≤ (if b = 0xED then 0x9F else 0xBF))
    (h5 : 0x80 ≤ b2) (h6 : b2 ≤ 0xBF) :
    EncodeRune ((b % 16) * 4096 + (b1 % 64) * 64 + b2 % 64) = [b, b1, b2] := by
  have e1 : ¬ ((b % 16) * 4096 + (b1 % 64) * 64 + b2 % 64 ≤ 0x7F) := by split_ifs at h3 h4 <;> omega
  have e2 : ¬ ((b % 16) * 4096 + (b1 % 64) * 64 + b2 % 64 ≤ 0x7FF) := by
    split_ifs at h3 h4 <;> omega
  have e3 : ¬ (0x10FFFF < (b % 16) * 4096 + (b1 % 64) * 64 + b2 % 64 ∨
      (0xD800 ≤ (b % 16) * 4096 + (b1 % 64) * 64 + b2 % 64 ∧
        (b % 16) * 4096 + (b1 % 64) * 64 + b2 % 64 ≤ 0xDFFF)) := by
    split_ifs at h3 h4 <;> omega
  have e4 : (b % 16) * 4096 + (b1 % 64) * 64 + b2 % 64 ≤ 0xFFFF := by omega
  have a1 : 0xE0 + ((b % 16) * 4096 + (b1 % 64) * 64 + b2 % 64) / 4096 = b := by omega
  have a2 : 0x80 + ((b % 16) * 4096 + (b1 % 64) * 64 + b2 % 64) / 64 % 64 = b1 := by
    split_ifs at h3 h4 <;> omega
  have a3 : 0x80 + ((b % 16) * 4096 + (b1 % 64) * 64 + b2 % 64) % 64 = b2 := by omega
  simp only [EncodeRune, if_neg e1, if_neg e2, if_neg e3, if_pos e4, a1, a2, a3]

theorem EncodeRune_four (b b1 b2 b3 : Nat) (h1 : 0xF0 ≤ b) (h2 : b < 0xF5)
    (h3 : (if b = 0xF0 then 0x90 else 0x80) ≤ b1) (h4 : b1 ≤ (if b = 0xF4 then 0x8F else 0xBF))
    (h5 : 0x80 ≤ b2) (h6 : b2 ≤ 0xBF) (h7 : 0x80 ≤ b3) (h8 : b3 ≤ 0xBF) :
    EncodeRune ((b % 8) * 262144 + (b1 % 64) * 4096 + (b2 % 64) * 64 + b3 % 64) =
      [b, b1, b2, b3] := by
  have e1 : ¬ ((b % 8) * 262144 + (b1 % 64) * 4096 + (b2 % 64) * 64 + b3 % 64 ≤ 0x7F) := by
    split_ifs at h3 h4 <;> omega
  have e2 : ¬ ((b % 8) * 262144 + (b1 % 64) * 4096 + (b2 % 64) * 64 + b3 % 64 ≤ 0x7FF) := by
    split_ifs at h3 h4 <;> omega
  have e3 : ¬ (0x10FFFF < (b % 8) * 262144 + (b1 % 64) * 4096 + (b2 % 64) * 64 + b3 % 64 ∨
      (0xD800 ≤ (b % 8) * 262144 + (b1 % 64) * 4096 + (b2 % 64) * 64 + b3 % 64 ∧
        (b % 8) * 262144 + (b1 % 64) * 4096 + (b2 % 64) * 64 + b3 % 64 ≤ 0xDFFF)) := by
    split_ifs at h3 h4 <;> omega
  have e4 : ¬ ((b % 8) * 262144 + (b1 % 64) * 4096 + (b2 % 64) * 64 + b3 % 64 ≤ 0xFFFF) := by
    split_ifs at h3 h4 <;> omega
  have a1 : 0xF0 + ((b % 8) * 262144 + (b1 % 64) * 4096 + (b2 % 64) * 64 + b3 % 64) / 262144
      = b := by omega
  have a2 : 0x80 + ((b % 8) * 262144 + (b1 % 64) * 4096 + (b2 % 64) * 64 + b3 % 64) / 4096 % 64
      = b1 := by split_ifs at h3 h4 <;> omega
  have a3 : 0x80 + ((b % 8) * 262144 + (b1 % 64) * 4096 + (b2 % 64) * 64 + b3 % 64) / 64 % 64
      = b2 := by omega
  have a4 : 0x80 + ((b % 8) * 262144 + (b1 % 64) * 4096 + (b2 % 64) * 64 + b3 % 64) % 64
      = b3 := by omega
  simp only [EncodeRune, if_neg e1, if_neg e2, if_neg e3, if_neg e4, a1, a2, a3, a4]

theorem DecodeRune_invalid_lead (b : Nat) (rest : List Nat) (hb : 0x80 ≤ b)
    (hx : b < 0xC2 ∨ 0xF5 ≤ b) : DecodeRune (b :: rest) = (RuneError, 1) := by
  have h0 : ¬ b < 0x80 := by omega
  simp only [DecodeRune, if_neg h0, if_pos hx]

theorem DecodeRune_short (b : Nat) (hb : 0x80 ≤ b) : DecodeRune [b] = (RuneError, 1) := by
  have h0 : ¬ b < 0x80 := by omega
  simp only [DecodeRune, if_neg h0]
  split_ifs <;> rfl

theorem DecodeRune_two (b b1 : Nat) (r : List Nat) (h1 : 0xC2 ≤ b) (h2 : b < 0xE0) :
    DecodeRune (b :: b1 :: r) =
      if b1 < 0x80 ∨ 0xBF < b1 then (RuneError, 1) else ((b % 32) * 64 + b1 % 64, 2) := by
  have h0 : ¬ b < 0x80 := by omega
  have hx : ¬ (b < 0xC2 ∨ 0xF5 ≤ b) := by omega
  have n1 : b ≠ 0xE0 := by omega
  have n2 : b ≠ 0xF0 := by omega
  have n3 : b ≠ 0xED := by omega
  have n4 : b ≠ 0xF4 := by omega
  simp [DecodeRune, h0, hx, h2, n1, n2, n3, n4]

theorem DecodeRune_three (b b1 b2 : Nat) (r : List Nat) (h1 : 0xE0 ≤ b) (h2 : b < 0xF0) :
    DecodeRune (b :: b1 :: b2 :: r) =
      if b1 < (if b = 0xE0 then 0xA0 else 0x80) ∨ (if b = 0xED then 0x9F else 0xBF) < b1 then
        (RuneError, 1)
      else if b2 < 0x80 ∨ 0xBF < b2 then (RuneError, 1)
      else ((b % 16) * 4096 + (b1 % 64) * 64 + b2 % 64, 3) := by
  have h0 : ¬ b < 0x80 := by omega
  have hx : ¬ (b < 0xC2 ∨ 0xF5 ≤ b) := by omega
  have h3 : ¬ b < 0xE0 := by omega
  have n2 : b ≠ 0xF0 := by omega
  have n4 : b ≠ 0xF4 := by omega
  simp [DecodeRune, h0, hx, h2, h3, n2, n4]

theorem DecodeRune_three_short (b b1 : Nat) (h1 : 0xE0 ≤ b) (h2 : b < 0xF5) :
    DecodeRune [b, b1] = (RuneError, 1) := by
  have h0 : ¬ b < 0x80 := by omega
  have hx : ¬ (b < 0xC2 ∨ 0xF5 ≤ b) := by omega
  have h3 : ¬ b < 0xE0 := by omega
  simp only [DecodeRune, if_neg h0, if_neg hx, if_neg h3]
  split_ifs <;> first | rfl | (exfalso; simp only [List.length_cons, List.length_nil] at *; omega)

theorem DecodeRune_four (b b1 b2 b3 : Nat) (r : List Nat) (h1 : 0xF0 ≤ b) (h2 : b < 0xF5) :
    DecodeRune (b :: b1 :: b2 :: b3 :: r) =
      if b1 < (if b = 0xF0 then 0x90 else 0x80) ∨ (if b = 0xF4 then 0x8F else 0xBF) < b1 then
        (RuneError, 1)
      else if b2 < 0x80 ∨ 0xBF < b2 then (RuneError, 1)
      else if b3 < 0x80 ∨ 0xBF < b3 then (RuneError, 1)
      else ((b % 8) * 262144 + (b1 % 64) * 4096 + (b2 % 64) * 64 + b3 % 64, 4) := by
  have h0 : ¬ b < 0x80 := by omega
  have hx : ¬ (b < 0xC2 ∨ 0xF5 ≤ b) := by omega
  have h3 : ¬ b < 0xE0 := by omega
  have h4 : ¬ b < 0xF0 := by omega
  have n1 : b ≠ 0xE0 := by omega
  have n3 : b ≠ 0xED := by omega
  simp [DecodeRune, h0, hx, h3, h4, n1, n3]

theorem DecodeRune_four_short (b b1 b2 : Nat) (h1 : 0xF0 ≤ b) (h2 : b < 0xF5) :
    DecodeRune [b, b1, b2] = (RuneError, 1) := by
  have h0 : ¬ b < 0x80 := by omega
  have hx : ¬ (b < 0xC2 ∨ 0xF5 ≤ b) := by omega
  have h3 : ¬ b < 0xE0 := by omega
  have h4 : ¬ b < 0xF0 := by omega
  simp only [DecodeRune, if_neg h0, if_neg hx, if_neg h3, if_neg h4]
  split_ifs <;> first | rfl | (exfalso; simp only [List.length_cons, List.length_nil] at *; omega)

/-- A rune that `DecodeRune` reads without error from at least two bytes: the
bytes read are the encoding of the rune, none of them is ASCII, and what
follows them does not matter. -/
theorem DecodeRune_valid_chunk (b : Nat) (rest : List Nat) (hb : 0x80 ≤ b)
    (hv : ¬ ((DecodeRune (b :: rest)).1 = RuneError ∧ (DecodeRune (b :: rest)).2 = 1)) :
    ∃ chunk tail, b :: rest = chunk ++ tail ∧
      chunk.length = (DecodeRune (b :: rest)).2 ∧ 0 < chunk.length ∧
      EncodeRune (DecodeRune (b :: rest)).1 = chunk ∧
      (∀ x ∈ chunk, 0x80 ≤ x) ∧
      ∀ r, DecodeRune (chunk ++ r) = DecodeRune (b :: rest) := by
  by_cases hx : b < 0xC2 ∨ 0xF5 ≤ b
  · exact absurd (by rw [DecodeRune_invalid_lead b rest hb hx]; exact ⟨rfl, rfl⟩) hv
  · have hlo : 0xC2 ≤ b := by omega
    have hhi : b < 0xF5 := by omega
    rcases rest with _ | ⟨b1, rest1⟩
    · exact absurd (by rw [DecodeRune_short b hb]; exact ⟨rfl, rfl⟩) hv
    · by_cases h2 : b < 0xE0
      · -- two bytes
        have hd := DecodeRune_two b b1 rest1 hlo h2
        by_cases hr : b1 < 0x80 ∨ 0xBF < b1
        · rw [if_pos hr] at hd
          exact absurd (by rw [hd]; exact ⟨rfl, rfl⟩) hv
        · rw [if_neg hr] at hd
          refine ⟨[b, b1], rest1, rfl, by rw [hd]; rfl, by simp, ?_, ?_, fun r => ?_⟩
          · rw [hd]; exact EncodeRune_two b b1 hlo h2 (by omega) (by omega)
          · intro x hx'
            simp only [List.mem_cons, List.mem_singleton, List.not_mem_nil, or_false] at hx'
            rcases hx' with rfl | rfl <;> omega
          · rw [hd]
            have := DecodeRune_two b b1 r hlo h2
            rw [if_neg hr] at this
            exact this
      · rcases rest1 with _ | ⟨b2, rest2⟩
        · exact absurd (by rw [DecodeRune_three_short b b1 (by omega) hhi]; exact ⟨rfl, rfl⟩) hv
        · by_cases h3 : b < 0xF0
          · -- three bytes
            have hd := DecodeRune_three b b1 b2 rest2 (by omega) h3
            by_cases hr1 : b1 < (if b = 0xE0 then 0xA0 else 0x80) ∨
                (if b = 0xED then 0x9F else 0xBF) < b1
            · rw [if_pos hr1] at hd
              exact absurd (by rw [hd]; exact ⟨rfl, rfl⟩) hv
            · rw [if_neg hr1] at hd
              by_cases hr2 : b2 < 0x80 ∨ 0xBF < b2
              · rw [if_pos hr2] at hd
                exact absurd (by rw [hd]; exact ⟨rfl, rfl⟩) hv
              · rw [if_neg hr2] at hd
                have g1 : (if b = 0xE0 then 0xA0 else 0x80) ≤ b1 := by omega
                have g2 : b1 ≤ (if b = 0xED then 0x9F else 0xBF) := by omega
                refine ⟨[b, b1, b2], rest2, rfl, by rw [hd]; rfl, by simp, ?_, ?_, fun r => ?_⟩
                · rw [hd]
                  exact EncodeRune_three b b1 b2 (by omega) h3 g1 g2 (by omega) (by omega)
                · intro x hx'
                  simp only [List.mem_cons, List.mem_singleton, List.not_mem_nil, or_false] at hx'
                  have g3 : 0x80 ≤ b1 := by split_ifs at g1 <;> omega
                  rcases hx' with rfl | rfl | rfl <;> omega
                · rw [hd]
                  have := DecodeRune_three b b1 b2 r (by omega) h3
                  rw [if_neg hr1, if_neg hr2] at this
                  exact this
          · rcases rest2 with _ | ⟨b3, rest3⟩
            · exact absurd
                (by rw [DecodeRune_four_short b b1 b2 (by omega) hhi]; exact ⟨rfl, rfl⟩) hv
            · -- four bytes
              have hd := DecodeRune_four b b1 b2 b3 rest3 (by omega) hhi
              by_cases hr1 : b1 < (if b = 0xF0 then 0x90 else 0x80) ∨
                  (if b = 0xF4 then 0x8F else 0xBF) < b1
              · rw [if_pos hr1] at hd
                exact absurd (by rw [hd]; exact ⟨rfl, rfl⟩) hv
              · rw [if_neg hr1] at hd
                by_cases hr2 : b2 < 0x80 ∨ 0xBF < b2
                · rw [if_pos hr2] at hd
                  exact absurd (by rw [hd]; exact ⟨rfl, rfl⟩) hv
                · rw [if_neg hr2] at hd
                  by_cases hr3 : b3 < 0x80 ∨ 0xBF < b3
                  · rw [if_pos hr3] at hd
                    exact absurd (by rw [hd]; exact ⟨rfl, rfl⟩) hv
                  · rw [if_neg hr3] at hd
                    have g1 : (if b = 0xF0 then 0x90 else 0x80) ≤ b1 := by omega
                    have g2 : b1 ≤ (if b = 0xF4 then 0x8F else 0xBF) := by omega
                    refine ⟨[b, b1, b2, b3], rest3, rfl, by rw [hd]; rfl, by simp, ?_, ?_,
                      fun r => ?_⟩
                    · rw [hd]
                      exact EncodeRune_four b b1 b2 b3 (by omega) hhi g1 g2 (by omega) (by omega)
                        (by omega) (by omega)
                    · intro x hx'
                      simp only [List.mem_cons, List.mem_singleton, List.not_mem_nil,
                        or_false] at hx'
                      have g3 : 0x80 ≤ b1 := by split_ifs at g1 <;> omega
                      rcases hx' with rfl | rfl | rfl | rfl <;> omega
                    · rw [hd]
                      have := DecodeRune_four b b1 b2 b3 r (by omega) hhi
                      rw [if_neg hr1, if_neg hr2, if_neg hr3] at this
                      exact this

/-! ## Facts about JSON string literals -/

theorem hexVal_lowerhex (d : Nat) (h : d < 16) : hexVal (lowerhex d) = some d := by
  interval_cases d <;> rfl

theorem isHex_lowerhex (d : Nat) (h : d < 16) : isHex (lowerhex d) = true := by
  interval_cases d <;> rfl

theorem scanString_plain (c : Nat) (r : List Nat) (h1 : 0x20 ≤ c) (h2 : c ≠ 0x22)
    (h3 : c ≠ 0x5C) : scanString (c :: r) = (scanString r).map (fun p => (c :: p.1, p.2)) := by
  have h4 : ¬ c < 0x20 := by omega
  simp only [scanString, scanStringFrom, if_neg h2, if_neg h3, if_neg h4]

theorem scanString_plain_run (chunk r : List Nat) (h : ∀ x ∈ chunk, 0x80 ≤ x) :
    scanString (chunk ++ r) = (scanString r).map (fun p => (chunk ++ p.1, p.2)) := by
  induction chunk with
  | nil =>
    rw [List.nil_append]
    cases h : scanString r <;> simp
  | cons c chunk ih =>
    have hc : 0x80 ≤ c := h c (by simp)
    rw [List.cons_append, scanString_plain c _ (by omega) (by omega) (by omega),
      ih (fun x hx => h x (by simp [hx]))]
    cases scanString r <;> rfl

theorem scanString_escape (e : Nat) (r : List Nat)
    (he : e = 0x62 ∨ e = 0x66 ∨ e = 0x6E ∨ e = 0x72 ∨ e = 0x74 ∨ e = 0x5C ∨ e = 0x2F ∨ e = 0x22) :
    scanString (0x5C :: e :: r) = (scanString r).map (fun p => (0x5C :: e :: p.1, p.2)) := by
  simp only [scanString, scanStringFrom, show ¬ (0x5C : Nat) = 0x22 by decide, if_false,
    if_true, if_pos he]
  cases scanStringFrom .inString r <;> rfl

theorem scanString_u4 (h1 h2 h3 h4 : Nat) (r : List Nat)
    (g1 : isHex h1 = true) (g2 : isHex h2 = true) (g3 : isHex h3 = true) (g4 : isHex h4 = true) :
    scanString (0x5C :: 0x75 :: h1 :: h2 :: h3 :: h4 :: r) =
      (scanString r).map (fun p => (0x5C :: 0x75 :: h1 :: h2 :: h3 :: h4 :: p.1, p.2)) := by
  simp only [scanString, scanStringFrom, show ¬ (0x5C : Nat) = 0x22 by decide, if_false, if_true,
    show ¬ ((0x75 : Nat) = 0x62 ∨ (0x75 : Nat) = 0x66 ∨ (0x75 : Nat) = 0x6E ∨ (0x75 : Nat) = 0x72 ∨
      (0x75 : Nat) = 0x74 ∨ (0x75 : Nat) = 0x5C ∨ (0x75 : Nat) = 0x2F ∨ (0x75 : Nat) = 0x22) by decide,
    g1, g2, g3, g4]
  cases scanStringFrom .inString r <;> rfl

theorem Atom_plain (b : Nat) (h1 : 0x20 ≤ b) (h2 : b ≠ 0x22) (h3 : b ≠ 0x5C) (h4 : b < 0x80) :
    Atom [b] [b] := by
  refine ⟨by simp, fun r => ?_, fun fuel r => ?_⟩
  · exact scanString_plain b r h1 h2 h3
  · have h5 : ¬ (b = 0x22 ∨ b < 0x20) := by omega
    simp [unquoteAux, h3, h5, h4]

theorem Atom_backslashed (b : Nat) (h : b = 0x5C ∨ b = 0x22) : Atom [0x5C, b] [b] := by
  refine ⟨by simp, fun r => ?_, fun fuel r => ?_⟩
  · exact scanString_escape b r (by omega)
  · have h5 : b = 0x22 ∨ b = 0x5C ∨ b = 0x2F ∨ b = 0x27 := by omega
    simp [unquoteAux, unquoteEscape, h5]

theorem Atom_short (e b : Nat)
    (h : (e = 0x62 ∧ b = 8) ∨ (e = 0x66 ∧ b = 12) ∨ (e = 0x6E ∧ b = 10) ∨ (e = 0x72 ∧ b = 13) ∨
      (e = 0x74 ∧ b = 9)) : Atom [0x5C, e] [b] := by
  refine ⟨by simp, fun r => ?_, fun fuel r => ?_⟩
  · exact scanString_escape e r (by omega)
  · rcases h with ⟨rfl, rfl⟩ | ⟨rfl, rfl⟩ | ⟨rfl, rfl⟩ | ⟨rfl, rfl⟩ | ⟨rfl, rfl⟩ <;>
      simp [unquoteAux, unquoteEscape]

theorem getu4_hex (d1 d2 d3 d4 : Nat) (r : List Nat) (h1 : d1 < 16) (h2 : d2 < 16)
    (h3 : d3 < 16) (h4 : d4 < 16) :
    getu4 (0x5C :: 0x75 :: lowerhex d1 :: lowerhex d2 :: lowerhex d3 :: lowerhex d4 :: r) =
      some (((d1 * 16 + d2) * 16 + d3) * 16 + d4) := by
  simp [getu4, hexVal_lowerhex, h1, h2, h3, h4]

/-- The escape `\uXXXX` of a rune below 0x10000 that is not a surrogate is an
atom for the UTF-8 encoding of the rune. -/
theorem Atom_u4 (d1 d2 d3 d4 : Nat) (h1 : d1 < 16) (h2 : d2 < 16) (h3 : d3 < 16) (h4 : d4 < 16)
    (hs : IsSurrogate (((d1 * 16 + d2) * 16 + d3) * 16 + d4) = false) :
    Atom [0x5C, 0x75, lowerhex d1, lowerhex d2, lowerhex d3, lowerhex d4]
      (EncodeRune (((d1 * 16 + d2) * 16 + d3) * 16 + d4)) := by
  refine ⟨by simp, fun r => ?_, fun fuel r => ?_⟩
  · exact scanString_u4 _ _ _ _ r (isHex_lowerhex d1 h1) (isHex_lowerhex d2 h2)
      (isHex_lowerhex d3 h3) (isHex_lowerhex d4 h4)
  · have hg := getu4_hex d1 d2 d3 d4 r h1 h2 h3 h4
    simp [unquoteAux, unquoteEscape, hg, hs]

/-- A multi-byte rune that decodes without error is an atom for itself. -/
theorem Atom_rune (chunk : List Nat) (rune : Nat) (h0 : 0 < chunk.length)
    (h1 : ∀ x ∈ chunk, 0x80 ≤ x) (h2 : ∀ r, DecodeRune (chunk ++ r) = (rune, chunk.length))
    (h3 : EncodeRune rune = chunk) : Atom chunk chunk := by
  refine ⟨h0, fun r => scanString_plain_run chunk r h1, fun fuel r => ?_⟩
  cases chunk with
  | nil => simp at h0
  | cons c chunk' =>
    have hc : 0x80 ≤ c := h1 c (by simp)
    have hd := h2 r
    rw [List.cons_append] at hd ⊢
    have e1 : ¬ c = 0x5C := by omega
    have e2 : ¬ (c = 0x22 ∨ c < 0x20) := by omega
    have e3 : ¬ c < 0x80 := by omega
    simp only [unquoteAux, if_neg e1, if_neg e2, if_neg e3, hd, h3]
    rw [← List.cons_append, List.drop_left]

theorem DecodeRune_ascii (b : Nat) (rest : List Nat) (h : b < 0x80) :
    DecodeRune (b :: rest) = (b, 1) := by
  simp only [DecodeRune, if_pos h]

/-- One iteration of the encoder loop on a string whose first rune is valid:
the encoder writes an atom for the bytes of that rune and goes on with the
rest, and so does the validity check. -/
theorem appendStringAux_step (b : Nat) (rest : List Nat)
    (hv : ¬ ((DecodeRune (b :: rest)).1 = RuneError ∧ (DecodeRune (b :: rest)).2 = 1)) :
    ∃ enc chunk tail, b :: rest = chunk ++ tail ∧ 0 < chunk.length ∧ Atom enc chunk ∧
      (∀ fuel, appendStringAux (fuel + 1) (b :: rest) = enc ++ appendStringAux fuel tail) ∧
      (∀ fuel, validAux (fuel + 1) (b :: rest) = validAux fuel tail) := by
  by_cases hb : b < 0x80
  · have hd := DecodeRune_ascii b rest hb
    have hval : ∀ fuel, validAux (fuel + 1) (b :: rest) = validAux fuel rest := by
      intro fuel
      have : ¬ ((DecodeRune (b :: rest)).1 = RuneError ∧ (DecodeRune (b :: rest)).2 = 1) := by
        rw [hd]; simp only [RuneError]; omega
      rw [validAux, if_neg this, hd]
      rfl
    by_cases hs : htmlSafe b = true
    · refine ⟨[b], [b], rest, rfl, by simp, ?_, fun fuel => ?_, hval⟩
      · simp only [htmlSafe, decide_eq_true_eq] at hs
        exact Atom_plain b hs.1 hs.2.2.1 hs.2.2.2.2.2.2 hb
      · simp only [appendStringAux, if_pos hb, if_pos hs]
    · have henc : ∀ fuel, appendStringAux (fuel + 1) (b :: rest) =
          escapeByte b ++ appendStringAux fuel rest := by
        intro fuel
        simp only [appendStringAux, if_pos hb, if_neg hs]
      refine ⟨escapeByte b, [b], rest, rfl, by simp, ?_, henc, hval⟩
      unfold escapeByte
      split_ifs with h1 h2 h3 h4 h5 h6
      · exact Atom_backslashed b h1
      · exact Atom_short 0x62 b (by omega)
      · exact Atom_short 0x66 b (by omega)
      · exact Atom_short 0x6E b (by omega)
      · exact Atom_short 0x72 b (by omega)
      · exact Atom_short 0x74 b (by omega)
      · have hA := Atom_u4 0 0 (b / 16) (b % 16) (by omega) (by omega) (by omega) (by omega)
          (by simp only [IsSurrogate, decide_eq_false_iff_not]; omega)
        have hr : ((0 * 16 + 0) * 16 + b / 16) * 16 + b % 16 = b := by omega
        have he : EncodeRune b = [b] := by
          simp only [EncodeRune, if_pos (show b ≤ 0x7F by omega)]
        rw [hr, he] at hA
        exact hA
  · have hb' : 0x80 ≤ b := by omega
    obtain ⟨chunk, tail, hsplit, hlen, hpos, henc, hhigh, hdec⟩ :=
      DecodeRune_valid_chunk b rest hb' hv
    have hdrop : List.drop (DecodeRune (b :: rest)).2 (b :: rest) = tail := by
      rw [← hlen, hsplit, List.drop_left]
    have htake : List.take (DecodeRune (b :: rest)).2 (b :: rest) = chunk := by
      rw [← hlen, hsplit, List.take_left]
    have hval : ∀ fuel, validAux (fuel + 1) (b :: rest) = validAux fuel tail := by
      intro fuel
      simp only [validAux, if_neg hv, hdrop]
    by_cases hls : (DecodeRune (b :: rest)).1 = 0x2028 ∨ (DecodeRune (b :: rest)).1 = 0x2029
    · refine ⟨bytes "\\u202" ++ [lowerhex ((DecodeRune (b :: rest)).1 % 16)], chunk, tail,
        hsplit, hpos, ?_, fun fuel => ?_, hval⟩
      · rw [← henc]
        rcases hls with h | h
        · rw [h]
          exact Atom_u4 2 0 2 8 (by omega) (by omega) (by omega) (by omega) (by decide)
        · rw [h]
          exact Atom_u4 2 0 2 9 (by omega) (by omega) (by omega) (by omega) (by decide)
      · simp only [appendStringAux, if_neg hb, if_neg hv, if_pos hls, hdrop]
    · refine ⟨chunk, chunk, tail, hsplit, hpos, ?_, fun fuel => ?_, hval⟩
      · exact Atom_rune chunk (DecodeRune (b :: rest)).1 hpos hhigh
          (fun r => by rw [hdec r, hlen]) henc
      · simp only [appendStringAux, if_neg hb, if_neg hv, if_neg hls, hdrop, htake]

/-- The string literal written by the encoder for a valid UTF-8 string is read
back: the scanner takes the encoded text as the raw contents of the literal,
and `unquoteBytes` turns the raw contents into the source string. -/
theorem appendStringAux_roundtrip (n : Nat) :
    ∀ s : List Nat, s.length ≤ n → validAux n s = true →
      (∀ r, scanString (appendStringAux n s ++ 0x22 :: r) = some (appendStringAux n s, r)) ∧
      (∀ m, (appendStringAux n s).length ≤ m → unquoteAux m (appendStringAux n s) = some s) := by
  induction n with
  | zero =>
    intro s hlen _
    have hs : s = [] := List.length_eq_zero.mp (Nat.le_zero.mp hlen)
    subst hs
    refine ⟨fun r => by simp [appendStringAux, scanString, scanStringFrom], fun m _ => ?_⟩
    cases m <;> simp [appendStringAux, unquoteAux]
  | succ n ih =>
    intro s hlen hvalid
    cases s with
    | nil =>
      refine ⟨fun r => by simp [appendStringAux, scanString, scanStringFrom], fun m _ => ?_⟩
      cases m <;> simp [appendStringAux, unquoteAux]
    | cons b rest =>
      have hv : ¬ ((DecodeRune (b :: rest)).1 = RuneError ∧ (DecodeRune (b :: rest)).2 = 1) := by
        intro h
        simp only [validAux, if_pos h] at hvalid
        exact Bool.false_ne_true hvalid
      obtain ⟨enc, chunk, tail, hsplit, hpos, ⟨hepos, hscan, hunq⟩, henc, hval⟩ :=
        appendStringAux_step b rest hv
      have htl : tail.length ≤ n := by
        have := congrArg List.length hsplit
        simp only [List.length_cons, List.length_append] at this
        simp only [List.length_cons] at hlen
        omega
      have hvt : validAux n tail = true := by rw [← hval n]; exact hvalid
      obtain ⟨ih1, ih2⟩ := ih tail htl hvt
      rw [henc n]
      refine ⟨fun r => ?_, fun m hm => ?_⟩
      · rw [List.append_assoc, hscan, ih1]
        simp
      · simp only [List.length_append] at hm
        obtain ⟨m', rfl⟩ : ∃ m', m = m' + 1 := ⟨m - 1, by omega⟩
        rw [hunq, ih2 m' (by omega), hsplit]
        rfl

theorem scanString_appendString (s : List Nat) (r : List Nat) (h : ValidString s = true) :
    scanString (appendStringAux s.length s ++ 0x22 :: r) =
      some (appendStringAux s.length s, r) :=
  (appendStringAux_roundtrip s.length s (Nat.le_refl _) h).1 r

theorem unquote_appendString (s : List Nat) (h : ValidString s = true) :
    unquote (appendStringAux s.length s) = some s :=
  (appendStringAux_roundtrip s.length s (Nat.le_refl _) h).2 _ (Nat.le_refl _)

/-! ## Facts about the encoded object -/

theorem skipSpace_cons_of_not_space (c : Nat) (r : List Nat) (h : isSpace c = false) :
    skipSpace (c :: r) = c :: r := by
  simp [skipSpace, h]

theorem parseValue_string (fuel depth : Nat) (s r : List Nat) (h : ValidString s = true) :
    parseValue (fuel + 1) depth (appendString s ++ r) =
      some (JValue.str (appendStringAux s.length s), r) := by
  have hs := scanString_appendString s r h
  simp only [appendString, List.append_assoc, List.singleton_append, List.cons_append,
    List.nil_append]
  rw [parseValue, skipSpace_cons_of_not_space 0x22 _ (by decide)]
  simp only [show ¬ (0x22 : Nat) = 0x7B by decide, show ¬ (0x22 : Nat) = 0x5B by decide,
    if_false, if_true, hs]

theorem encodeMembers_succ (i : Nat) (es : List (GoString × GoString)) :
    encodeMembers (i + 1) es = encodeMembers 1 es := by
  induction es generalizing i with
  | nil => rfl
  | cons e es ih =>
    obtain ⟨k, v⟩ := e
    simp only [encodeMembers, ih (i + 1), ih 1]
    simp

/-- The members written by the encoder for valid UTF-8 entries are read back by
the scanner, with the closing brace. -/
theorem parseMembers_encodeMembers (es : List (GoString × GoString)) :
    ∀ (k v : GoString) (fuel depth : Nat) (r : List Nat),
      ValidString k = true → ValidString v = true →
      (∀ e ∈ es, ValidString e.1 = true ∧ ValidString e.2 = true) →
      es.length + 2 ≤ fuel →
      parseMembers fuel depth
          (appendString k ++ [0x3A] ++ appendString v ++ encodeMembers 1 es ++ 0x7D :: r) =
        some (rawMembers ((k, v) :: es), r) := by
  induction es with
  | nil =>
    intro k v fuel depth r hk hv _ hf
    obtain ⟨f1, rfl⟩ : ∃ f1, fuel = f1 + 1 + 1 := ⟨fuel - 2, by simp at hf; omega⟩
    have hsk := scanString_appendString k ([0x3A] ++ appendString v ++ 0x7D :: r) hk
    have hpv := parseValue_string f1 depth v (0x7D :: r) hv
    simp only [encodeMembers, List.append_nil]
    rw [parseMembers]
    simp only [appendString, List.append_assoc, List.singleton_append, List.cons_append,
      List.nil_append] at hsk hpv ⊢
    rw [skipSpace_cons_of_not_space 0x22 _ (by decide)]
    simp only [if_true, hsk]
    rw [skipSpace_cons_of_not_space 0x3A _ (by decide)]
    simp only [if_true, hpv]
    rw [skipSpace_cons_of_not_space 0x7D _ (by decide)]
    simp [rawMembers, JValue.kind]
  | cons e es ih =>
    intro k v fuel depth r hk hv hes hf
    obtain ⟨k', v'⟩ := e
    obtain ⟨f1, rfl⟩ : ∃ f1, fuel = f1 + 1 + 1 := ⟨fuel - 2, by simp at hf; omega⟩
    have he := hes (k', v') (by simp)
    have hih := ih k' v' (f1 + 1) depth r he.1 he.2 (fun e he' => hes e (by simp [he']))
      (by simp at hf ⊢; omega)
    have hsk := scanString_appendString k ([0x3A] ++ appendString v ++
      encodeMembers 1 ((k', v') :: es) ++ 0x7D :: r) hk
    have hpv := parseValue_string f1 depth v (encodeMembers 1 ((k', v') :: es) ++ 0x7D :: r) hv
    rw [parseMembers]
    simp only [encodeMembers, encodeMembers_succ 1 es, appendString, List.append_assoc,
      List.singleton_append, List.cons_append, List.nil_append, Nat.lt_irrefl, if_true,
      show (1 : Nat) > 0 by decide] at hsk hpv hih ⊢
    rw [skipSpace_cons_of_not_space 0x22 _ (by decide)]
    simp only [if_true, hsk]
    rw [skipSpace_cons_of_not_space 0x3A _ (by decide)]
    simp only [if_true, hpv]
    rw [skipSpace_cons_of_not_space 0x2C _ (by decide)]
    simp only [if_true, hih]
    simp [rawMembers, JValue.kind]

theorem decodeMembers_rawMembers (es : List (GoString × GoString)) :
    ∀ (jm : GoMap GoString) (err : Bool),
      (∀ e ∈ es, ValidString e.1 = true ∧ ValidString e.2 = true) →
      decodeMembers (rawMembers es) jm err =
        (es.foldl (fun m e => m.insert e.1 e.2) jm, err) := by
  induction es with
  | nil => intro jm err _; rfl
  | cons e es ih =>
    intro jm err hes
    obtain ⟨k, v⟩ := e
    have he := hes (k, v) (by simp)
    have hk := unquote_appendString k he.1
    have hv := unquote_appendString v he.2
    simp only [rawMembers, List.map_cons, decodeMembers, hk, hv, List.foldl_cons]
    exact ih _ err (fun e he' => hes e (by simp [he']))

theorem length_le_encodeMembers (i : Nat) (es : List (GoString × GoString)) :
    es.length ≤ (encodeMembers i es).length := by
  induction es generalizing i with
  | nil => simp
  | cons e es ih =>
    obtain ⟨k, v⟩ := e
    have := ih (i + 1)
    simp only [encodeMembers, List.length_append, List.length_cons, appendString,
      List.length_singleton]
    omega

theorem parseValue_object (fuel : Nat) (X X' : List Nat) (ms : List (List Nat × JKind))
    (r : List Nat) (hq : X = 0x22 :: X') (h : parseMembers fuel 1 X = some (ms, r)) :
    parseValue (fuel + 1) 0 (0x7B :: X) = some (JValue.object ms, r) := by
  subst hq
  rw [parseValue, skipSpace_cons_of_not_space 0x7B _ (by decide)]
  simp only [if_true, maxNestingDepth]
  rw [skipSpace_cons_of_not_space 0x22 _ (by decide)]
  simp +decide [h]

/-- The text written by the encoder for a map with valid UTF-8 keys and values
is valid JSON: an object whose members are the sorted entries. -/
theorem checkValid_Encode (nc : GoMap GoString)
    (h : ∀ e ∈ sortEntries nc.entries, ValidString e.1 = true ∧ ValidString e.2 = true) :
    checkValid (Encode nc) = some (JValue.object (rawMembers (sortEntries nc.entries))) := by
  unfold checkValid Encode
  cases hes : sortEntries nc.entries with
  | nil => rfl
  | cons e es =>
    obtain ⟨k, v⟩ := e
    rw [hes] at h
    have he := h (k, v) (by simp)
    have hlen := length_le_encodeMembers 1 es
    have key : [0x7B] ++ encodeMembers 0 ((k, v) :: es) ++ [0x7D] ++ [0x0A] =
        0x7B :: (appendString k ++ [0x3A] ++ appendString v ++ encodeMembers 1 es ++
          0x7D :: [0x0A]) := by
      simp [encodeMembers, encodeMembers_succ 0 es]
    have hq : appendString k ++ [0x3A] ++ appendString v ++ encodeMembers 1 es ++ 0x7D :: [0x0A] =
        0x22 :: (appendStringAux k.length k ++ [0x22] ++ [0x3A] ++ appendString v ++
          encodeMembers 1 es ++ 0x7D :: [0x0A]) := by
      simp [appendString]
    have hp := parseMembers_encodeMembers es k v
      (2 * (0x7B :: (appendString k ++ [0x3A] ++ appendString v ++ encodeMembers 1 es ++
          0x7D :: [0x0A])).length + 1) 1 [0x0A]
      he.1 he.2 (fun e he' => h e (by simp [he']))
      (by
        simp only [List.length_append, List.length_cons, List.length_nil, appendString]
        omega)
    rw [key, parseValue_object _ _ _ _ _ hq hp]
    rfl

/-! ## Facts about sorting the entries and about `Save` -/

theorem insertSorted_perm (e : GoString × GoString) (l : List (GoString × GoString)) :
    (insertSorted e l).Perm (e :: l) := by
  induction l with
  | nil => exact List.Perm.refl _
  | cons e' l ih =>
    by_cases h : ltString e'.1 e.1 = true
    · simp only [insertSorted, if_pos h]
      exact (List.Perm.cons e' ih).trans (List.Perm.swap e e' l)
    · simp only [insertSorted, if_neg h]
      exact List.Perm.refl _

theorem sortEntries_perm (l : List (GoString × GoString)) : (sortEntries l).Perm l := by
  induction l with
  | nil => exact List.Perm.refl _
  | cons e l ih =>
    simp only [sortEntries]
    exact (insertSorted_perm e (sortEntries l)).trans (List.Perm.cons e ih)

theorem lookupL_eq_some_iff {V : Type} (k : GoString) (v : V) (l : List (GoString × V))
    (h : (l.map Prod.fst).Nodup) : lookupL k l = some v ↔ (k, v) ∈ l := by
  induction l with
  | nil => simp [lookupL]
  | cons e l ih =>
    obtain ⟨k', v'⟩ := e
    rw [List.map_cons, List.nodup_cons] at h
    by_cases hk : k' = k
    · subst hk
      simp only [lookupL, if_true, Option.some.injEq, List.mem_cons, Prod.mk.injEq, true_and]
      constructor
      · intro h1; exact Or.inl h1.symm
      · rintro (h1 | h1)
        · exact h1.symm
        · exact absurd (List.mem_map_of_mem Prod.fst h1) h.1
    · simp only [lookupL, if_neg hk, ih h.2, List.mem_cons, Prod.mk.injEq]
      constructor
      · intro h1; exact Or.inr h1
      · rintro (h1 | h1)
        · exact absurd h1.1.symm hk
        · exact h1

theorem lookupL_perm {V : Type} (k : GoString) (l1 l2 : List (GoString × V))
    (hp : l1.Perm l2) (h : (l2.map Prod.fst).Nodup) : lookupL k l1 = lookupL k l2 := by
  have h1 : (l1.map Prod.fst).Nodup := (hp.map Prod.fst).nodup_iff.mpr h
  apply Option.ext
  intro v
  simp only [Option.mem_def]
  rw [lookupL_eq_some_iff k v l1 h1, lookupL_eq_some_iff k v l2 h]
  exact hp.mem_iff

theorem foldl_insert_empty_entries (es : List (GoString × GoString))
    (h : (es.map Prod.fst).Nodup) :
    (es.foldl (fun m e => m.insert e.1 e.2) (GoMap.empty : GoMap GoString)).entries = es := by
  have := foldl_insert_entries (fun v : GoString => v) es GoMap.empty h (by simp [GoMap.empty])
  simpa [GoMap.empty] using this

/-- The map `nc` built by `Save` lists the entries of the cache, each value as
a string. -/
theorem saveMap_entries (c : cache) :
    (saveMap c).entries = c.items.entries.map (fun e => (e.1, toGoString e.2.value)) := by
  have hfold : saveMap c =
      c.items.entries.foldl (fun nc e => nc.insert e.1 (toGoString e.2.value)) GoMap.empty := by
    unfold saveMap GoMap.keys
    rw [List.foldl_map]
    apply List.foldl_ext
    intro nc e he
    have hl : c.items.lookup e.1 = some e.2 :=
      (lookupL_eq_some_iff e.1 e.2 c.items.entries c.items.nodup).mpr he
    simp only [hl]
  rw [hfold]
  have := foldl_insert_entries (fun it : Item => toGoString it.value) c.items.entries
    GoMap.empty c.items.nodup (by simp [GoMap.empty])
  simpa [GoMap.empty] using this

/-! ## The store operations -/

/-- C1 (as amended): for every store, every key `k` absent from it and every
value `v`, `addKV(k, v)` reports success with the message `k Added to cache`
and a subsequent `retKV(k)` returns exactly `v`; when `v` is not `nil` this is
a found result, different from the `nil` that `retKV` returns for an absent
key. -/
theorem addKV_absent_then_retKV (c : cache) (k : GoString) (v : ByteSlice)
    (h : ifexist c k = false) :
    (addKV c k v).2 = k ++ bytes " Added to cache\n" ∧
      retKV (addKV c k v).1 k = v ∧
      (v ≠ none → retKV (addKV c k v).1 k ≠ none) := by
  have h1 : retKV (addKV c k v).1 k = v := by
    simp [addKV, h, retKV_insert_self]
  refine ⟨by simp [addKV, h], h1, fun hv => ?_⟩
  rw [h1]
  exact hv

/-- Witness of C1: adding `k` with value `v` to the empty cache. -/
theorem addKV_absent_then_retKV_witness :
    (addKV newcache (bytes "k") (some (bytes "v"))).2 = bytes "k" ++ bytes " Added to cache\n" ∧
      retKV (addKV newcache (bytes "k") (some (bytes "v"))).1 (bytes "k") = some (bytes "v") ∧
      (some (bytes "v") ≠ none →
        retKV (addKV newcache (bytes "k") (some (bytes "v"))).1 (bytes "k") ≠ none) :=
  addKV_absent_then_retKV newcache (bytes "k") (some (bytes "v")) (by decide)

/-- C1 as stated fails for the `nil` value: `k` is absent from the empty cache,
`addKV(k, nil)` reports success, and the following `retKV(k)` returns `nil`,
which is what `retKV` returns for an absent key. -/
theorem addKV_nil_value_reads_as_absent :
    ifexist newcache (bytes "k") = false ∧
      (addKV newcache (bytes "k") none).2 = bytes "k Added to cache\n" ∧
      ifexist (addKV newcache (bytes "k") none).1 (bytes "k") = true ∧
      retKV (addKV newcache (bytes "k") none).1 (bytes "k") = none ∧
      retKV newcache (bytes "k") = none := by
  decide

/-- C2: for every store, every key `k` present in it and every value `v`,
`addKV(k, v)` returns the unchanged store with the message
`The Key: k already exists`; in particular `retKV(k)` is what it was. -/
theorem addKV_present_unchanged (c : cache) (k : GoString) (v : ByteSlice)
    (h : ifexist c k = true) :
    addKV c k v = (c, bytes "The Key: " ++ k ++ bytes " already exists\n") ∧
      retKV (addKV c k v).1 k = retKV c k := by
  simp [addKV, h]

/-- Witness of C2: adding `k` again to the cache that holds `k`. -/
theorem addKV_present_unchanged_witness :
    addKV oneEntry (bytes "k") (some (bytes "w")) =
        (oneEntry, bytes "The Key: " ++ bytes "k" ++ bytes " already exists\n") ∧
      retKV (addKV oneEntry (bytes "k") (some (bytes "w"))).1 (bytes "k") =
        retKV oneEntry (bytes "k") :=
  addKV_present_unchanged oneEntry (bytes "k") (some (bytes "w")) (by decide)

/-- C3: for every store and every key `k` absent from it, `updateKV(k, v)` (for
every `v`) and `delKV(k)` each return the unchanged store with the message
`The Key: k doesn't exists`. -/
theorem updateKV_delKV_absent_unchanged (c : cache) (k : GoString) (v : ByteSlice)
    (h : ifexist c k = false) :
    updateKV c k v = (c, bytes "The Key: " ++ k ++ bytes " doesn't exists\n") ∧
      delKV c k = (c, bytes "The Key: " ++ k ++ bytes " doesn't exists\n") := by
  simp [updateKV, delKV, h]

/-- Witness of C3: updating and deleting the key `z`, absent from the cache
that holds `k`. -/
theorem updateKV_delKV_absent_unchanged_witness :
    updateKV oneEntry (bytes "z") (some (bytes "w")) =
        (oneEntry, bytes "The Key: " ++ bytes "z" ++ bytes " doesn't exists\n") ∧
      delKV oneEntry (bytes "z") =
        (oneEntry, bytes "The Key: " ++ bytes "z" ++ bytes " doesn't exists\n") :=
  updateKV_delKV_absent_unchanged oneEntry (bytes "z") (some (bytes "w")) (by decide)

/-! ## The command protocol -/

theorem Split_two_fields (s : List Nat) (h : 0x3A ∈ s) :
    ∃ s0 s1 tl, Split s = s0 :: s1 :: tl := by
  have h2 := (Split_length_ge_two_iff s).mpr h
  match hs : Split s with
  | [] => simp [hs] at h2
  | [_] => simp [hs] at h2
  | s0 :: s1 :: tl => exact ⟨s0, s1, tl, rfl⟩

theorem Split_one_field (s : List Nat) (h : 0x3A ∉ s) : ∃ s0, Split s = [s0] :=
  ⟨s, Split_no_colon s h⟩

/-- `processmsg` runs to its end exactly on the messages described by
`completes`; on every other message it ends in a slice-bounds or index fault. -/
theorem processmsg_completes_iff (os : OS) (table : Nat → Bool) (c : cache) (m : Buffer) :
    (processmsg os table c m).isSome = completes m := by
  unfold processmsg completes
  cases hf : m.upTo1 with
  | none => simp
  | some b =>
    simp only []
    by_cases hA : ToUpper1 b = bytes "A"
    · simp only [hA, if_true, true_or, Buffer.from2]
      by_cases hl : 2 ≤ m.data.length
      · by_cases hc : 0x3A ∈ m.data.drop 2
        · obtain ⟨s0, s1, tl, hs⟩ := Split_two_fields _ hc
          simp [hl, hc, hs]
        · obtain ⟨s0, hs⟩ := Split_one_field _ hc
          simp [hl, hc, hs]
      · simp [hl]
    · by_cases hU : ToUpper1 b = bytes "U"
      · simp only [hU, if_true, or_true, Buffer.from2]
        by_cases hl : 2 ≤ m.data.length
        · by_cases hc : 0x3A ∈ m.data.drop 2
          · obtain ⟨s0, s1, tl, hs⟩ := Split_two_fields _ hc
            simp [hl, hc, hs, show bytes "U" ≠ bytes "A" by decide]
          · obtain ⟨s0, hs⟩ := Split_one_field _ hc
            simp [hl, hc, hs, show bytes "U" ≠ bytes "A" by decide]
        · simp [hl, show bytes "U" ≠ bytes "A" by decide]
      · by_cases hD : ToUpper1 b = bytes "D"
        · by_cases hl : 2 ≤ m.data.length <;> simp +decide [hD, hl, Buffer.from2]
        · by_cases hR : ToUpper1 b = bytes "R"
          · by_cases hl : 2 ≤ m.data.length
            · cases hv : retKV c (m.data.drop 2) <;> simp +decide [hR, hl, hv, Buffer.from2]
            · simp +decide [hR, hl, Buffer.from2]
          · by_cases hI : ToUpper1 b = bytes "I"
            · simp +decide [hI]
            · by_cases hL : ToUpper1 b = bytes "L"
              · by_cases hl : 2 ≤ m.data.length
                · by_cases ht : (LoadFile os c (m.data.drop 2)).2 = false <;>
                    simp +decide [hL, hl, ht, Buffer.from2]
                · simp +decide [hL, hl, Buffer.from2]
              · by_cases hS : ToUpper1 b = bytes "S"
                · by_cases hl : 2 ≤ m.data.length <;> simp +decide [hS, hl, Buffer.from2]
                · by_cases hP : ToUpper1 b = bytes "P"
                  · simp +decide [hP]
                  · simp [hA, hU, hD, hR, hI, hL, hS, hP]

/-- C4 (as amended): for every store and every message `m` described by
`completes` (the operation byte can be read, `D`, `R`, `L`, `S` messages have
at least two bytes, `A` and `U` messages moreover a colon in `m[2:]`),
`processmsg(m)` runs to its end and returns a reply or no reply. -/
theorem processmsg_completes (os : OS) (table : Nat → Bool) (c : cache) (m : Buffer)
    (h : completes m = true) : ∃ c' rv, processmsg os table c m = some (c', rv) := by
  have h1 := (processmsg_completes_iff os table c m).trans h
  cases hp : processmsg os table c m with
  | none => simp [hp] at h1
  | some r => exact ⟨r.1, r.2, rfl⟩

/-- Witness of C4: the message `D:k` on the empty cache. -/
theorem processmsg_completes_witness :
    ∃ c' rv, processmsg noFiles asciiTable newcache ⟨bytes "D:k", []⟩ = some (c', rv) :=
  processmsg_completes noFiles asciiTable newcache ⟨bytes "D:k", []⟩ (by decide)

/-- C4 as stated fails: on the empty cache the one-byte message `D` and the
message `A:k` (a key and no value field) both end in a run-time fault, also
with spare capacity behind the message, and so does the empty message of
capacity zero. -/
theorem processmsg_faults_on_short_messages :
    processmsg noFiles asciiTable newcache ⟨bytes "D", [0, 0, 0]⟩ = none ∧
      processmsg noFiles asciiTable newcache ⟨bytes "A:k", [0, 0, 0]⟩ = none ∧
      processmsg noFiles asciiTable newcache ⟨[], []⟩ = none := by
  decide

/-! ## Loading and saving through the command protocol -/

/-- C5 (the code at the failing input): the file `bad.json` exists and holds
`not json`, which `json.Unmarshal` rejects with an error; `LoadFile` on the
cache holding `k` nevertheless returns `true` and the emptied cache, and the
`L` command replies `File Loaded`. -/
theorem LoadFile_malformed_clears_and_succeeds :
    (Unmarshal (bytes "not json") GoMap.empty).2 = true ∧
      cachesize oneEntry = 1 ∧
      LoadFile badFile oneEntry (bytes "bad.json") = (newcache, true) ∧
      processmsg badFile asciiTable oneEntry ⟨bytes "L:bad.json", []⟩ =
        some (newcache, some (bytes "File Loaded")) := by
  decide

/-- C6: for every store and every file name whose read fails, the message
`L:<filename>` returns the unchanged store and the reply
`File failed to load please check location`. -/
theorem processmsg_L_read_failure (os : OS) (table : Nat → Bool) (c : cache)
    (fname spare : List Nat) (h : os.ReadFile fname = none) :
    processmsg os table c ⟨bytes "L:" ++ fname, spare⟩ =
      some (c, some (bytes "File failed to load please check location")) := by
  have h2 : (Buffer.mk (bytes "L:" ++ fname) spare).from2 = some fname := by
    simp [Buffer.from2, bytes]
  have h1 : (Buffer.mk (bytes "L:" ++ fname) spare).upTo1 = some 0x4C := by
    simp [Buffer.upTo1, bytes]
  simp only [processmsg, h1, h2]
  simp +decide [LoadFile, h]

/-- Witness of C6: `L:nofile.json` on a file system without files. -/
theorem processmsg_L_read_failure_witness :
    processmsg noFiles asciiTable oneEntry ⟨bytes "L:" ++ bytes "nofile.json", []⟩ =
      some (oneEntry, some (bytes "File failed to load please check location")) :=
  processmsg_L_read_failure noFiles asciiTable oneEntry (bytes "nofile.json") [] rfl

/-- Whatever `SaveFile` returns, the message `S:<filename>` returns the reply
`File Saved`: the failure reply is overwritten. -/
theorem processmsg_S_always_saved (os : OS) (table : Nat → Bool) (c : cache)
    (fname spare : List Nat) :
    processmsg os table c ⟨bytes "S:" ++ fname, spare⟩ = some (c, some (bytes "File Saved")) := by
  have h2 : (Buffer.mk (bytes "S:" ++ fname) spare).from2 = some fname := by
    simp [Buffer.from2, bytes]
  have h1 : (Buffer.mk (bytes "S:" ++ fname) spare).upTo1 = some 0x53 := by
    simp [Buffer.upTo1, bytes]
  simp only [processmsg, h1, h2]
  simp +decide

/-- C7 (the code at the failing input): on a file system where nothing can be
created `SaveFile` returns the error of `os.Create`, and the message
`S:/x/db.json` still returns the reply `File Saved`. -/
theorem processmsg_S_reports_saved_on_failure :
    SaveFile noFiles oneEntry (bytes "/x/db.json") = some SaveError.create ∧
      processmsg noFiles asciiTable oneEntry ⟨bytes "S:/x/db.json", []⟩ =
        some (oneEntry, some (bytes "File Saved")) := by
  decide

/-! ## The snapshot round trip -/

/-- The text written by `Save` for a cache whose keys and values are valid
UTF-8 decodes, without error, into the sorted entries of the cache. -/
theorem Unmarshal_Save (c : cache)
    (hvalid : ∀ e ∈ c.items.entries,
      ValidString e.1 = true ∧ ValidString (toGoString e.2.value) = true) :
    Unmarshal (Save c) GoMap.empty =
        ((sortEntries (saveMap c).entries).foldl (fun m e => m.insert e.1 e.2) GoMap.empty,
          false) := by
  have hv : ∀ e ∈ sortEntries (saveMap c).entries,
      ValidString e.1 = true ∧ ValidString e.2 = true := by
    intro e he
    have he' := (sortEntries_perm (saveMap c).entries).mem_iff.mp he
    rw [saveMap_entries, List.mem_map] at he'
    obtain ⟨e0, h0, rfl⟩ := he'
    exact hvalid e0 h0
  unfold Unmarshal Save
  rw [checkValid_Encode (saveMap c) hv]
  exact decodeMembers_rawMembers _ _ _ hv

/-- C8 (as amended): for every store whose keys and values are valid UTF-8,
decoding the bytes written by `Save` with `json.Unmarshal`, as `LoadFile` does,
reports no error and reproduces the pairs of the store: the decoded mapping has
an entry for exactly the keys of the store, the string decoded for a key is the
byte sequence of the value stored under it, and there are as many pairs as the
store has entries. -/
theorem Save_Unmarshal_roundtrip (c : cache)
    (hvalid : ∀ e ∈ c.items.entries,
      ValidString e.1 = true ∧ ValidString (toGoString e.2.value) = true) :
    (Unmarshal (Save c) GoMap.empty).2 = false ∧
      (∀ k, (Unmarshal (Save c) GoMap.empty).1.lookup k =
        (c.items.lookup k).map (fun item => toGoString item.value)) ∧
      (Unmarshal (Save c) GoMap.empty).1.len = cachesize c := by
  have hperm := sortEntries_perm (saveMap c).entries
  have hnd : ((sortEntries (saveMap c).entries).map Prod.fst).Nodup :=
    (hperm.map Prod.fst).nodup_iff.mpr (saveMap c).nodup
  have hent := foldl_insert_empty_entries (sortEntries (saveMap c).entries) hnd
  rw [Unmarshal_Save c hvalid]
  refine ⟨rfl, fun k => ?_, ?_⟩
  · simp only [GoMap.lookup, hent]
    rw [lookupL_perm k _ _ hperm (saveMap c).nodup, saveMap_entries]
    exact lookupL_map_value (fun item : Item => toGoString item.value) k c.items.entries
  · simp only [GoMap.len, hent, cachesize]
    rw [hperm.length_eq, saveMap_entries, List.length_map]

/-- Witness of C8: the round trip of the cache `utf8Entry`. -/
theorem Save_Unmarshal_roundtrip_witness :
    (Unmarshal (Save utf8Entry) GoMap.empty).2 = false ∧
      (∀ k, (Unmarshal (Save utf8Entry) GoMap.empty).1.lookup k =
        (utf8Entry.items.lookup k).map (fun item => toGoString item.value)) ∧
      (Unmarshal (Save utf8Entry) GoMap.empty).1.len = cachesize utf8Entry :=
  Save_Unmarshal_roundtrip utf8Entry (by decide)

/-- C8 as stated fails for a value that is not valid UTF-8: the store holds the
byte `0xFF` under `k`; `Save` writes the escape of U+FFFD for it, and decoding
what `Save` wrote yields the three bytes `EF BF BD` under `k`, without error. -/
theorem Save_Unmarshal_invalid_utf8 :
    retKV invalidEntry (bytes "k") = some [0xFF] ∧
      Save invalidEntry = bytes "\x7b\"k\":\"\\ufffd\"\x7d\n" ∧
      (Unmarshal (Save invalidEntry) GoMap.empty).2 = false ∧
      (Unmarshal (Save invalidEntry) GoMap.empty).1.lookup (bytes "k") =
        some [0xEF, 0xBF, 0xBD] := by
  decide

/-! ## Loading a snapshot -/

/-- The entries of the cache after a `LoadFile` whose read succeeds: those that
`json.Unmarshal` decodes from the file, each as an item holding the bytes of
the decoded string; nothing of the former contents is left. -/
theorem LoadFile_entries (os : OS) (c : cache) (fname : GoString) (cont : List Nat)
    (hr : os.ReadFile fname = some cont) :
    (LoadFile os c fname).2 = true ∧
      (LoadFile os c fname).1.items.entries =
        (Unmarshal cont GoMap.empty).1.entries.map
          (fun kv => (kv.1, (⟨[], toByteSlice kv.2⟩ : Item))) := by
  simp only [LoadFile, hr, true_and]
  rw [foldl_insert_entries (fun v => (⟨[], toByteSlice v⟩ : Item)) _ _
    (Unmarshal cont GoMap.empty).1.nodup]
  · rw [clear_entries]; rfl
  · intro k _
    rw [clear_entries]
    simp

/-- C9: for every store and every readable file whose content `json.Unmarshal`
decodes without error into the mapping `M`, `LoadFile` succeeds and afterwards
the store holds exactly the pairs of `M`: `retKV(k)` is `M`'s value for every
key of `M` and `nil` (absent) for every other key, whatever the store held
before, and the store has as many entries as `M`. -/
theorem LoadFile_replaces_store (os : OS) (c : cache) (fname : GoString) (cont : List Nat)
    (M : GoMap GoString) (hr : os.ReadFile fname = some cont)
    (hd : Unmarshal cont GoMap.empty = (M, false)) :
    (LoadFile os c fname).2 = true ∧
      (∀ k, retKV (LoadFile os c fname).1 k = M.lookup k) ∧
      (∀ k, ifexist (LoadFile os c fname).1 k = (M.lookup k).isSome) ∧
      cachesize (LoadFile os c fname).1 = M.len := by
  obtain ⟨h1, h2⟩ := LoadFile_entries os c fname cont hr
  rw [hd] at h2
  have hl : ∀ k, (LoadFile os c fname).1.items.lookup k =
      (M.lookup k).map (fun v => (⟨[], toByteSlice v⟩ : Item)) := by
    intro k
    simp only [GoMap.lookup, h2]
    exact lookupL_map_value (fun v => (⟨[], toByteSlice v⟩ : Item)) k M.entries
  refine ⟨h1, fun k => ?_, fun k => ?_, ?_⟩
  · simp only [retKV, ifexist, hl]
    cases M.lookup k <;> simp [toByteSlice]
  · simp only [ifexist, hl]
    cases M.lookup k <;> simp
  · simp [cachesize, GoMap.len, h2]

/-- Witness of C9: loading `db.json` into the cache that holds `k`. -/
theorem LoadFile_replaces_store_witness :
    (LoadFile goodFile oneEntry (bytes "db.json")).2 = true ∧
      (∀ k, retKV (LoadFile goodFile oneEntry (bytes "db.json")).1 k = pairAX.lookup k) ∧
      (∀ k, ifexist (LoadFile goodFile oneEntry (bytes "db.json")).1 k =
        (pairAX.lookup k).isSome) ∧
      cachesize (LoadFile goodFile oneEntry (bytes "db.json")).1 = pairAX.len :=
  LoadFile_replaces_store goodFile oneEntry (bytes "db.json")
    (bytes "\x7b\"a\":\"x\"\x7d\n") pairAX (by decide) (by decide)

/-! ## Parsing of the `A` command -/

/-- C10: for every key `k` and value field `v` without a colon and every suffix
`rest`, the message `A:k:v:rest` on a store without `k` adds `k` with value
exactly `v`: the reply is `k Added to cache` and `retKV(k)` on the resulting
store returns `v`. -/
theorem processmsg_A_truncates_value (os : OS) (table : Nat → Bool) (c : cache)
    (k v rest spare : List Nat) (hk : 0x3A ∉ k) (hv : 0x3A ∉ v)
    (hc : ifexist c k = false) :
    processmsg os table c ⟨bytes "A:" ++ k ++ bytes ":" ++ v ++ bytes ":" ++ rest, spare⟩ =
        some ((addKV c k (some v)).1, some (k ++ bytes " Added to cache
")) ∧
      retKV (addKV c k (some v)).1 k = some v := by
  have h2 : (Buffer.mk (bytes "A:" ++ k ++ bytes ":" ++ v ++ bytes ":" ++ rest) spare).from2 =
      some (k ++ 0x3A :: (v ++ 0x3A :: rest)) := by
    simp [Buffer.from2, bytes]
  have h1 : (Buffer.mk (bytes "A:" ++ k ++ bytes ":" ++ v ++ bytes ":" ++ rest) spare).upTo1 =
      some 0x41 := by
    simp [Buffer.upTo1, bytes]
  have hs : Split (k ++ 0x3A :: (v ++ 0x3A :: rest)) = k :: v :: Split rest := by
    rw [Split_field_colon k _ hk, Split_field_colon v _ hv]
  have hr : retKV (addKV c k (some v)).1 k = some v := by
    simp [addKV, hc, retKV_insert_self]
  refine ⟨?_, hr⟩
  simp only [processmsg, h1, h2, hs]
  simp +decide [addKV, hc]

/-- Witness of C10: the message `A:A:x:1:5` on the empty cache stores `x`
under the key `A`. -/
theorem processmsg_A_truncates_value_witness :
    processmsg noFiles asciiTable newcache
          ⟨bytes "A:" ++ bytes "A" ++ bytes ":" ++ bytes "x" ++ bytes ":" ++ bytes "1:5", []⟩ =
        some ((addKV newcache (bytes "A") (some (bytes "x"))).1,
          some (bytes "A" ++ bytes " Added to cache
")) ∧
      retKV (addKV newcache (bytes "A") (some (bytes "x"))).1 (bytes "A") = some (bytes "x") :=
  processmsg_A_truncates_value noFiles asciiTable newcache (bytes "A") (bytes "x") (bytes "1:5")
    [] (by decide) (by decide) (by decide)

/-! ## Facts about `%q` -/

theorem quoteAux_plain (table : Nat → Bool) (n : Nat) :
    ∀ s : List Nat, s.length ≤ n →
      (∀ b ∈ s, 0x20 ≤ b ∧ b ≤ 0x7E ∧ b ≠ 0x22 ∧ b ≠ 0x5C) → quoteAux table n s = s := by
  induction n with
  | zero =>
    intro s hl _
    have hs : s = [] := List.length_eq_zero.mp (Nat.le_zero.mp hl)
    subst hs
    rfl
  | succ n ih =>
    intro s hl hs
    cases s with
    | nil => rfl
    | cons b rest =>
      have hb := hs b (by simp)
      have h1 : ¬ 0x80 ≤ b := by omega
      have h2 : b ≠ RuneError := by
        simp only [RuneError]; omega
      have h3 : ¬ (b = 0x22 ∨ b = 0x5C) := by omega
      have h4 : IsPrint table b = true := by
        simp only [IsPrint, if_pos (show b ≤ 0xFF by omega),
          if_pos (show 0x20 ≤ b ∧ b ≤ 0x7E from ⟨hb.1, hb.2.1⟩)]
      have h5 : EncodeRune b = [b] := by
        simp only [EncodeRune, if_pos (show b ≤ 0x7F by omega)]
      have hrest := ih rest (by simp only [List.length_cons] at hl; omega)
        (fun x hx => hs x (by simp [hx]))
      simp [quoteAux, h1, h2, appendEscapedRune, h3, h4, h5, hrest]

/-- `%q` of a string of printable ASCII without quote and backslash is the
string between double quotes. -/
theorem Quote_plain (table : Nat → Bool) (s : List Nat)
    (hs : ∀ b ∈ s, 0x20 ≤ b ∧ b ≤ 0x7E ∧ b ≠ 0x22 ∧ b ≠ 0x5C) :
    Quote table s = bytes "\"" ++ s ++ bytes "\"" := by
  simp only [Quote, quoteAux_plain table s.length s (Nat.le_refl _) hs]
  rfl

/-! ## Facts about the dispatch of `processmsg` -/

theorem upTo1_cons (b : Nat) (rest spare : List Nat) :
    (Buffer.mk (b :: rest) spare).upTo1 = some b := rfl

theorem from2_cons_cons (b x : Nat) (arg spare : List Nat) :
    (Buffer.mk (b :: x :: arg) spare).from2 = some arg := by
  simp [Buffer.from2]

/-- The operation byte enters `processmsg` only through its upper-case form. -/
theorem processmsg_congr_op (os : OS) (table : Nat → Bool) (c : cache) (b b' : Nat)
    (rest spare : List Nat) (h : ToUpper1 b = ToUpper1 b') :
    processmsg os table c ⟨b :: rest, spare⟩ = processmsg os table c ⟨b' :: rest, spare⟩ := by
  simp only [processmsg, upTo1_cons, h, Buffer.from2, List.length_cons, List.drop_succ_cons]

theorem ToUpper1_ne_op (b : Nat) (h : b ∉ bytes "AUDRILSPaudrilsp") :
    ToUpper1 b ≠ bytes "A" ∧ ToUpper1 b ≠ bytes "U" ∧ ToUpper1 b ≠ bytes "D" ∧
      ToUpper1 b ≠ bytes "R" ∧ ToUpper1 b ≠ bytes "I" ∧ ToUpper1 b ≠ bytes "L" ∧
      ToUpper1 b ≠ bytes "S" ∧ ToUpper1 b ≠ bytes "P" := by
  have hb : bytes "AUDRILSPaudrilsp" =
      [65, 85, 68, 82, 73, 76, 83, 80, 97, 117, 100, 114, 105, 108, 115, 112] := by decide
  rw [hb] at h
  simp only [List.mem_cons, List.mem_singleton, List.not_mem_nil, or_false, not_or] at h
  have hA : bytes "A" = [65] := by decide
  have hU : bytes "U" = [85] := by decide
  have hD : bytes "D" = [68] := by decide
  have hR : bytes "R" = [82] := by decide
  have hI : bytes "I" = [73] := by decide
  have hL : bytes "L" = [76] := by decide
  have hS : bytes "S" = [83] := by decide
  have hP : bytes "P" = [80] := by decide
  rw [hA, hU, hD, hR, hI, hL, hS, hP]
  unfold ToUpper1
  split_ifs <;> simp <;> omega

/-! ## The `R` command, unrecognised operations and the case of the operation -/

/-- C11 (as amended): for every store and every key `k` absent from it, the
message `R:k` leaves the store unchanged and returns the textual reply made of
`k` as `%q` writes it followed by ` does not exist`; this reply is never the
structured reply of a found key, and when `k` is printable ASCII without quote
and backslash, `%q` writes `k` between double quotes. -/
theorem processmsg_R_absent (os : OS) (table : Nat → Bool) (c : cache) (k spare : List Nat)
    (h : ifexist c k = false) :
    processmsg os table c ⟨bytes "R:" ++ k, spare⟩ =
        some (c, some (Quote table k ++ bytes " does not exist")) ∧
      (∀ v : List Nat, Quote table k ++ bytes " does not exist" ≠
        bytes "\x7b" ++ Quote table (bytes "key") ++ bytes ": " ++ Quote table k ++ bytes ", " ++
          Quote table (bytes "value") ++ bytes ": " ++ Quote table v ++ bytes "\x7d") ∧
      ((∀ b ∈ k, 0x20 ≤ b ∧ b ≤ 0x7E ∧ b ≠ 0x22 ∧ b ≠ 0x5C) →
        Quote table k ++ bytes " does not exist" =
          bytes "\"" ++ k ++ bytes "\"" ++ bytes " does not exist") := by
  refine ⟨?_, fun v hv => ?_, fun hk => by rw [Quote_plain table k hk]⟩
  · have h1 : (Buffer.mk (bytes "R:" ++ k) spare).upTo1 = some 0x52 := rfl
    have h2 : (Buffer.mk (bytes "R:" ++ k) spare).from2 = some k :=
      from2_cons_cons 0x52 0x3A k spare
    have h3 : retKV c k = none := by simp [retKV, h]
    simp only [processmsg, h1, h2, h3]
    simp +decide
  · have := congrArg List.head? hv
    simp [Quote, bytes] at this

/-- Witness of C11: the message `R:missing` on the empty cache. -/
theorem processmsg_R_absent_witness :
    processmsg noFiles asciiTable newcache ⟨bytes "R:" ++ bytes "missing", []⟩ =
        some (newcache, some (Quote asciiTable (bytes "missing") ++ bytes " does not exist")) ∧
      (∀ v : List Nat, Quote asciiTable (bytes "missing") ++ bytes " does not exist" ≠
        bytes "\x7b" ++ Quote asciiTable (bytes "key") ++ bytes ": " ++
          Quote asciiTable (bytes "missing") ++ bytes ", " ++
          Quote asciiTable (bytes "value") ++ bytes ": " ++ Quote asciiTable v ++ bytes "\x7d") ∧
      ((∀ b ∈ bytes "missing", 0x20 ≤ b ∧ b ≤ 0x7E ∧ b ≠ 0x22 ∧ b ≠ 0x5C) →
        Quote asciiTable (bytes "missing") ++ bytes " does not exist" =
          bytes "\"" ++ bytes "missing" ++ bytes "\"" ++ bytes " does not exist") :=
  processmsg_R_absent noFiles asciiTable newcache (bytes "missing") [] (by decide)

/-- C11 as stated fails for a key that `%q` escapes: on the empty cache the
message `R:missing` followed by a line feed is answered with the key written as
`missing\n` (backslash, `n`) between the quotes, which is not the key itself
between double quotes. -/
theorem processmsg_R_absent_escapes_key :
    ifexist newcache (bytes "missing\n") = false ∧
      processmsg noFiles asciiTable newcache ⟨bytes "R:" ++ bytes "missing\n", []⟩ =
        some (newcache, some (bytes "\"missing\\n\" does not exist")) ∧
      bytes "\"missing\\n\" does not exist" ≠
        bytes "\"" ++ bytes "missing\n" ++ bytes "\"" ++ bytes " does not exist" := by
  decide

/-- C12: for every store and every message that is not empty and whose first
byte is none of `A`, `U`, `D`, `R`, `I`, `L`, `S`, `P` in either case,
`processmsg` returns no reply (`nil`) and the unchanged store. -/
theorem processmsg_unrecognised (os : OS) (table : Nat → Bool) (c : cache) (b : Nat)
    (rest spare : List Nat) (h : b ∉ bytes "AUDRILSPaudrilsp") :
    processmsg os table c ⟨b :: rest, spare⟩ = some (c, none) := by
  obtain ⟨hA, hU, hD, hR, hI, hL, hS, hP⟩ := ToUpper1_ne_op b h
  simp only [processmsg, upTo1_cons, if_neg hA, if_neg hU, if_neg hD, if_neg hR, if_neg hI,
    if_neg hL, if_neg hS, if_neg hP]

/-- Witness of C12: the message `X:k:v` on the cache that holds `k`. -/
theorem processmsg_unrecognised_witness :
    processmsg noFiles asciiTable oneEntry ⟨0x58 :: bytes ":k:v", []⟩ = some (oneEntry, none) :=
  processmsg_unrecognised noFiles asciiTable oneEntry 0x58 (bytes ":k:v") [] (by decide)

/-- C13: for every store and every message whose first byte `b` is one of the
lower-case letters `a`, `u`, `d`, `r`, `i`, `l`, `s`, `p`, `processmsg` returns
the same result (reply and store, or fault) as for the message with `b`
replaced by its upper-case letter `b - 32`. -/
theorem processmsg_case_insensitive (os : OS) (table : Nat → Bool) (c : cache) (b : Nat)
    (rest spare : List Nat) (h : b ∈ bytes "audrilsp") :
    processmsg os table c ⟨b :: rest, spare⟩ =
      processmsg os table c ⟨(b - 32) :: rest, spare⟩ := by
  apply processmsg_congr_op
  have hb : bytes "audrilsp" = [97, 117, 100, 114, 105, 108, 115, 112] := by decide
  rw [hb] at h
  simp only [List.mem_cons, List.mem_singleton, List.not_mem_nil, or_false] at h
  rcases h with rfl | rfl | rfl | rfl | rfl | rfl | rfl | rfl <;> decide

/-- Witness of C13: `a:k:v` and `A:k:v` on the empty cache. -/
theorem processmsg_case_insensitive_witness :
    processmsg noFiles asciiTable newcache ⟨0x61 :: bytes ":k:v", []⟩ =
      processmsg noFiles asciiTable newcache ⟨(0x61 - 32) :: bytes ":k:v", []⟩ :=
  processmsg_case_insensitive noFiles asciiTable newcache 0x61 (bytes ":k:v") [] (by decide)

/-! ## Facts about the keys and the size of a map -/

theorem GoMap.ext_entries {V : Type} (m1 m2 : GoMap V) (h : m1.entries = m2.entries) :
    m1 = m2 := by
  cases m1; cases m2; simp only [GoMap.mk.injEq]; exact h

theorem keys_insertL_of_mem {V : Type} (k : GoString) (v : V) (l : List (GoString × V))
    (h : k ∈ l.map Prod.fst) : (insertL k v l).map Prod.fst = l.map Prod.fst := by
  induction l with
  | nil => simp at h
  | cons e l ih =>
    obtain ⟨k', v'⟩ := e
    by_cases hk : k' = k
    · subst hk; simp [insertL]
    · have h' : k ∈ l.map Prod.fst := by
        simp only [List.map_cons, List.mem_cons] at h
        rcases h with h | h
        · exact absurd h.symm hk
        · exact h
      simp [insertL, hk, ih h']

theorem eraseL_of_not_mem {V : Type} (k : GoString) (l : List (GoString × V))
    (h : k ∉ l.map Prod.fst) : eraseL k l = l := by
  induction l with
  | nil => rfl
  | cons e l ih =>
    obtain ⟨k', v'⟩ := e
    simp only [List.map_cons, List.mem_cons, not_or] at h
    simp [eraseL, Ne.symm h.1, ih h.2]

theorem length_eraseL_of_mem {V : Type} (k : GoString) (l : List (GoString × V))
    (hn : (l.map Prod.fst).Nodup) (h : k ∈ l.map Prod.fst) :
    (eraseL k l).length + 1 = l.length := by
  induction l with
  | nil => simp at h
  | cons e l ih =>
    obtain ⟨k', v'⟩ := e
    rw [List.map_cons, List.nodup_cons] at hn
    by_cases hk : k' = k
    · subst hk
      simp [eraseL, eraseL_of_not_mem _ l hn.1]
    · have h' : k ∈ l.map Prod.fst := by
        simp only [List.map_cons, List.mem_cons] at h
        rcases h with h | h
        · exact absurd h.symm hk
        · exact h
      simp [eraseL, hk, ih hn.2 h']

theorem eraseL_insertL_of_not_mem {V : Type} (k : GoString) (v : V) (l : List (GoString × V))
    (h : k ∉ l.map Prod.fst) : eraseL k (insertL k v l) = l := by
  induction l with
  | nil => simp [insertL, eraseL]
  | cons e l ih =>
    obtain ⟨k', v'⟩ := e
    simp only [List.map_cons, List.mem_cons, not_or] at h
    simp [insertL, eraseL, Ne.symm h.1, ih h.2]

theorem mem_keys_of_ifexist (c : cache) (k : GoString) (h : ifexist c k = true) :
    k ∈ c.items.entries.map Prod.fst := by
  by_contra hn
  have := (lookupL_eq_none_iff k c.items.entries).mpr hn
  have h2 : ifexist c k = false := (ifexist_eq_false_iff c k).mpr this
  rw [h] at h2
  exact Bool.noConfusion h2

theorem not_mem_keys_of_ifexist (c : cache) (k : GoString) (h : ifexist c k = false) :
    k ∉ c.items.entries.map Prod.fst :=
  (lookupL_eq_none_iff k c.items.entries).mp ((ifexist_eq_false_iff c k).mp h)

/-! ## Update, delete, frame and size -/

/-- C14: for every store, every key `k` present in it and every value `v`,
`updateKV(k, v)` reports success with the message `k has been updated`, a
subsequent `retKV(k)` returns exactly `v`, and the keys of the store are the
same as before. -/
theorem updateKV_present (c : cache) (k : GoString) (v : ByteSlice)
    (h : ifexist c k = true) :
    (updateKV c k v).2 = k ++ bytes " has been updated\n" ∧
      retKV (updateKV c k v).1 k = v ∧
      (updateKV c k v).1.items.keys = c.items.keys ∧
      (∀ k', ifexist (updateKV c k v).1 k' = ifexist c k') := by
  have hu : updateKV c k v =
      (⟨c.items.insert k ⟨[], v⟩⟩, k ++ bytes " has been updated\n") := by
    simp [updateKV, h]
  rw [hu]
  refine ⟨rfl, retKV_insert_self c k v, ?_, fun k' => ?_⟩
  · simp only [GoMap.keys, GoMap.insert]
    exact keys_insertL_of_mem k _ _ (mem_keys_of_ifexist c k h)
  · by_cases hk : k' = k
    · subst hk
      rw [h]
      simp [ifexist, GoMap.lookup, GoMap.insert, lookupL_insertL_self]
    · simp [ifexist, GoMap.lookup, GoMap.insert, lookupL_insertL_ne k k' _ _ hk]

/-- Witness of C14: updating `k` in the cache that holds `k`. -/
theorem updateKV_present_witness :
    (updateKV oneEntry (bytes "k") (some (bytes "w"))).2 = bytes "k" ++ bytes " has been updated\n" ∧
      retKV (updateKV oneEntry (bytes "k") (some (bytes "w"))).1 (bytes "k") = some (bytes "w") ∧
      (updateKV oneEntry (bytes "k") (some (bytes "w"))).1.items.keys = oneEntry.items.keys ∧
      (∀ k', ifexist (updateKV oneEntry (bytes "k") (some (bytes "w"))).1 k' =
        ifexist oneEntry k') :=
  updateKV_present oneEntry (bytes "k") (some (bytes "w")) (by decide)

/-- C15: for every store and every key `k` present in it, `delKV(k)` reports
success with the message `k deleted`, and afterwards `k` is absent: `retKV(k)`
returns `nil` and a second `delKV(k)` returns the message
`The Key: k doesn't exists` and changes nothing. -/
theorem delKV_present (c : cache) (k : GoString) (h : ifexist c k = true) :
    (delKV c k).2 = k ++ bytes " deleted\n" ∧
      ifexist (delKV c k).1 k = false ∧
      retKV (delKV c k).1 k = none ∧
      delKV (delKV c k).1 k =
        ((delKV c k).1, bytes "The Key: " ++ k ++ bytes " doesn't exists\n") := by
  have hd : delKV c k = (⟨c.items.erase k⟩, k ++ bytes " deleted\n") := by
    simp [delKV, h]
  rw [hd]
  have h1 : ifexist (⟨c.items.erase k⟩ : cache) k = false := by
    simp [ifexist, GoMap.lookup, GoMap.erase, lookupL_eraseL_self]
  refine ⟨rfl, h1, by simp [retKV, h1], by simp [delKV, h1]⟩

/-- Witness of C15: deleting `k` from the cache that holds `k`. -/
theorem delKV_present_witness :
    (delKV oneEntry (bytes "k")).2 = bytes "k" ++ bytes " deleted\n" ∧
      ifexist (delKV oneEntry (bytes "k")).1 (bytes "k") = false ∧
      retKV (delKV oneEntry (bytes "k")).1 (bytes "k") = none ∧
      delKV (delKV oneEntry (bytes "k")).1 (bytes "k") =
        ((delKV oneEntry (bytes "k")).1,
          bytes "The Key: " ++ bytes "k" ++ bytes " doesn't exists\n") :=
  delKV_present oneEntry (bytes "k") (by decide)

/-- C19: for every store, every key `k`, every value `v` and every other key
`k'`, each of `addKV(k, v)`, `updateKV(k, v)` and `delKV(k)`, whether it
succeeds or fails, leaves the entry of `k'` as it was: the same presence
(`ifexist`), the same stored item and the same `retKV(k')`. -/
theorem other_key_unchanged (c : cache) (k k' : GoString) (v : ByteSlice) (h : k' ≠ k) :
    ((addKV c k v).1.items.lookup k' = c.items.lookup k' ∧
        ifexist (addKV c k v).1 k' = ifexist c k' ∧
        retKV (addKV c k v).1 k' = retKV c k') ∧
      ((updateKV c k v).1.items.lookup k' = c.items.lookup k' ∧
        ifexist (updateKV c k v).1 k' = ifexist c k' ∧
        retKV (updateKV c k v).1 k' = retKV c k') ∧
      ((delKV c k).1.items.lookup k' = c.items.lookup k' ∧
        ifexist (delKV c k).1 k' = ifexist c k' ∧
        retKV (delKV c k).1 k' = retKV c k') := by
  have key : ∀ c' : cache, c'.items.lookup k' = c.items.lookup k' →
      c'.items.lookup k' = c.items.lookup k' ∧ ifexist c' k' = ifexist c k' ∧
        retKV c' k' = retKV c k' := by
    intro c' hl
    exact ⟨hl, by simp only [ifexist, hl], by simp only [retKV, ifexist, hl]⟩
  have hi : ∀ item : Item, (⟨c.items.insert k item⟩ : cache).items.lookup k' =
      c.items.lookup k' := by
    intro item
    simp only [GoMap.lookup, GoMap.insert]
    exact lookupL_insertL_ne k k' item _ h
  have he : (⟨c.items.erase k⟩ : cache).items.lookup k' = c.items.lookup k' := by
    simp only [GoMap.lookup, GoMap.erase]
    exact lookupL_eraseL_ne k k' _ h
  refine ⟨key _ ?_, key _ ?_, key _ ?_⟩
  · unfold addKV
    split_ifs
    · rfl
    · exact hi _
  · unfold updateKV
    split_ifs
    · rfl
    · exact hi _
  · unfold delKV
    split_ifs
    · rfl
    · exact he

/-- Witness of C19: operations on `k` seen from the other key `j` of the cache
that holds both. -/
theorem other_key_unchanged_witness :
    ((addKV twoEntries (bytes "k") (some (bytes "w"))).1.items.lookup (bytes "j") =
          twoEntries.items.lookup (bytes "j") ∧
        ifexist (addKV twoEntries (bytes "k") (some (bytes "w"))).1 (bytes "j") =
          ifexist twoEntries (bytes "j") ∧
        retKV (addKV twoEntries (bytes "k") (some (bytes "w"))).1 (bytes "j") =
          retKV twoEntries (bytes "j")) ∧
      ((updateKV twoEntries (bytes "k") (some (bytes "w"))).1.items.lookup (bytes "j") =
          twoEntries.items.lookup (bytes "j") ∧
        ifexist (updateKV twoEntries (bytes "k") (some (bytes "w"))).1 (bytes "j") =
          ifexist twoEntries (bytes "j") ∧
        retKV (updateKV twoEntries (bytes "k") (some (bytes "w"))).1 (bytes "j") =
          retKV twoEntries (bytes "j")) ∧
      ((delKV twoEntries (bytes "k")).1.items.lookup (bytes "j") =
          twoEntries.items.lookup (bytes "j") ∧
        ifexist (delKV twoEntries (bytes "k")).1 (bytes "j") = ifexist twoEntries (bytes "j") ∧
        retKV (delKV twoEntries (bytes "k")).1 (bytes "j") = retKV twoEntries (bytes "j")) :=
  other_key_unchanged twoEntries (bytes "k") (bytes "j") (some (bytes "w")) (by decide)

/-- C20: for every store, key `k` and value `v`: a successful `addKV` (key
absent) increases `cachesize` by exactly 1; a successful `delKV` (key present)
decreases it by exactly 1; `updateKV`, a failing `addKV` (key present) and a
failing `delKV` (key absent) leave it unchanged; and `delKV(k)` after a
successful `addKV(k, v)` gives back the original store.  `retKV` and `Printdb`
only read the store: they return bytes and no store. -/
theorem cachesize_effects (c : cache) (k : GoString) (v : ByteSlice) :
    (ifexist c k = false → cachesize (addKV c k v).1 = cachesize c + 1) ∧
      (ifexist c k = true → cachesize (delKV c k).1 + 1 = cachesize c) ∧
      cachesize (updateKV c k v).1 = cachesize c ∧
      (ifexist c k = true → cachesize (addKV c k v).1 = cachesize c) ∧
      (ifexist c k = false → cachesize (delKV c k).1 = cachesize c) ∧
      (ifexist c k = false → (delKV (addKV c k v).1 k).1 = c) := by
  refine ⟨fun h => ?_, fun h => ?_, ?_, fun h => ?_, fun h => ?_, fun h => ?_⟩
  · have ha : addKV c k v = (⟨c.items.insert k ⟨[], v⟩⟩, k ++ bytes " Added to cache\n") := by
      simp [addKV, h]
    rw [ha]
    simp [cachesize, GoMap.len, GoMap.insert,
      insertL_of_not_mem k _ _ (not_mem_keys_of_ifexist c k h)]
  · have hd : delKV c k = (⟨c.items.erase k⟩, k ++ bytes " deleted\n") := by
      simp [delKV, h]
    rw [hd]
    simp only [cachesize, GoMap.len, GoMap.erase]
    exact length_eraseL_of_mem k _ c.items.nodup (mem_keys_of_ifexist c k h)
  · by_cases h : ifexist c k = true
    · have hu : updateKV c k v =
          (⟨c.items.insert k ⟨[], v⟩⟩, k ++ bytes " has been updated\n") := by
        simp [updateKV, h]
      rw [hu]
      have hk := keys_insertL_of_mem k (⟨[], v⟩ : Item) _ (mem_keys_of_ifexist c k h)
      have := congrArg List.length hk
      simpa [cachesize, GoMap.len, GoMap.insert] using this
    · simp [updateKV, h]
  · simp [addKV, h]
  · simp [delKV, h]
  · have ha : addKV c k v = (⟨c.items.insert k ⟨[], v⟩⟩, k ++ bytes " Added to cache\n") := by
      simp [addKV, h]
    rw [ha]
    have he : ifexist (⟨c.items.insert k ⟨[], v⟩⟩ : cache) k = true := by
      simp [ifexist, GoMap.lookup, GoMap.insert, lookupL_insertL_self]
    have hd : delKV (⟨c.items.insert k ⟨[], v⟩⟩ : cache) k =
        (⟨(c.items.insert k ⟨[], v⟩).erase k⟩, k ++ bytes " deleted\n") := by
      simp [delKV, he]
    rw [hd]
    cases c with
    | mk items =>
      simp only [cache.mk.injEq]
      apply GoMap.ext_entries
      simp only [GoMap.erase, GoMap.insert]
      exact eraseL_insertL_of_not_mem k _ _ (not_mem_keys_of_ifexist ⟨items⟩ k h)

/-- Witness of C20: the key `z`, absent from the cache that holds `k`, and the
key `k`, present in it. -/
theorem cachesize_effects_witness :
    cachesize (addKV oneEntry (bytes "z") (some (bytes "w"))).1 = cachesize oneEntry + 1 ∧
      cachesize (delKV oneEntry (bytes "k")).1 + 1 = cachesize oneEntry ∧
      cachesize (updateKV oneEntry (bytes "k") (some (bytes "w"))).1 = cachesize oneEntry ∧
      cachesize (addKV oneEntry (bytes "k") (some (bytes "w"))).1 = cachesize oneEntry ∧
      cachesize (delKV oneEntry (bytes "z")).1 = cachesize oneEntry ∧
      (delKV (addKV oneEntry (bytes "z") (some (bytes "w"))).1 (bytes "z")).1 = oneEntry :=
  ⟨(cachesize_effects oneEntry (bytes "z") (some (bytes "w"))).1 (by decide),
    (cachesize_effects oneEntry (bytes "k") (some (bytes "w"))).2.1 (by decide),
    (cachesize_effects oneEntry (bytes "k") (some (bytes "w"))).2.2.1,
    (cachesize_effects oneEntry (bytes "k") (some (bytes "w"))).2.2.2.1 (by decide),
    (cachesize_effects oneEntry (bytes "z") (some (bytes "w"))).2.2.2.2.1 (by decide),
    (cachesize_effects oneEntry (bytes "z") (some (bytes "w"))).2.2.2.2.2 (by decide)⟩

/-! ## The listing of `Printdb` and the size -/

theorem foldl_pairs (table : Nat → Bool) (es : List (GoString × Item)) :
    ∀ acc : List Nat, es ≠ [] →
      es.foldl (fun js kv => js ++ (Quote table kv.1 ++ bytes ":" ++
        Quote table (toGoString kv.2.value) ++ bytes ",")) acc =
      acc ++ joinComma (es.map (pairText table)) ++ bytes "," := by
  induction es with
  | nil => intro acc h; exact absurd rfl h
  | cons e es ih =>
    intro acc _
    cases es with
    | nil => simp [joinComma, pairText]
    | cons e' es' =>
      rw [List.foldl_cons, ih _ (by simp)]
      simp [joinComma, pairText]

/-- C16: for every store, the integer of `cachesize`, which the `I` command
embeds in its reply `Cache has N items`, is the number of pairs that `Printdb`
lists on the same store: `Printdb` returns `Cache is empty` when the size is 0
and otherwise the texts of `listedPairs`, joined by commas between brackets;
there are `cachesize` of them, one per key of `c.items.keys` (the key and the
value that `retKV` returns for it, both as `%q` writes them), and these keys
are pairwise distinct and are exactly the stored keys, so that every stored
key is listed exactly once. -/
theorem cachesize_eq_listed (os : OS) (table : Nat → Bool) (c : cache) (spare : List Nat) :
    processmsg os table c ⟨bytes "I", spare⟩ =
        some (c, some (bytes "Cache has " ++ itoa (cachesize c) ++ bytes " items")) ∧
      Printdb table c =
        (if cachesize c = 0 then bytes "Cache is empty"
          else bytes "[" ++ joinComma (listedPairs table c) ++ bytes "]") ∧
      (listedPairs table c).length = cachesize c ∧
      listedPairs table c = c.items.keys.map (fun k =>
        Quote table k ++ bytes ":" ++ Quote table (toGoString (retKV c k))) ∧
      c.items.keys.length = cachesize c ∧
      c.items.keys.Nodup ∧
      (∀ k, k ∈ c.items.keys ↔ ifexist c k = true) := by
  refine ⟨?_, ?_, ?_, ?_, ?_, c.items.nodup, fun k => ⟨fun hk => ?_, fun hk => ?_⟩⟩
  · have h1 : (Buffer.mk (bytes "I") spare).upTo1 = some 0x49 := rfl
    simp only [processmsg, h1]
    simp +decide
  · unfold Printdb
    by_cases h0 : c.items.len = 0
    · simp [h0, cachesize]
    · have hne : c.items.entries ≠ [] := by
        intro h
        apply h0
        simp [GoMap.len, h]
      simp only [cachesize, if_neg h0, foldl_pairs table _ _ hne, listedPairs]
      congr 1
      rw [show (bytes "," : List Nat) = [0x2C] from rfl, List.length_append,
        List.length_singleton, Nat.add_sub_cancel, List.take_left]
  · simp [listedPairs, cachesize, GoMap.len]
  · simp only [listedPairs, GoMap.keys, List.map_map]
    apply List.map_congr_left
    intro e he
    have hl : c.items.lookup e.1 = some e.2 :=
      (lookupL_eq_some_iff e.1 e.2 c.items.entries c.items.nodup).mpr he
    simp [pairText, retKV, ifexist, hl]
  · simp [GoMap.keys, cachesize, GoMap.len]
  · by_contra hn
    have hf : ifexist c k = false := by
      cases h : ifexist c k
      · rfl
      · exact absurd h hn
    exact not_mem_keys_of_ifexist c k hf hk
  · exact mem_keys_of_ifexist c k hk

/-! ## The HTTP handlers and the commands -/

/-- Additions of one key in sequence: calls of `addKV` with one absent key,
run one after the other, give one success, for the first call, and the
`already exists` message for every later call. -/
theorem addKVs_one_success (c : cache) (k : GoString) (v : ByteSlice) (vs : List ByteSlice)
    (h : ifexist c k = false) :
    (addKVs c k (v :: vs)).2 =
      (k ++ bytes " Added to cache\n") ::
        List.replicate vs.length (bytes "The Key: " ++ k ++ bytes " already exists\n") := by
  have hrest : ∀ (ws : List ByteSlice) (c' : cache), ifexist c' k = true →
      (addKVs c' k ws).2 =
        List.replicate ws.length (bytes "The Key: " ++ k ++ bytes " already exists\n") := by
    intro ws
    induction ws with
    | nil => intro c' _; rfl
    | cons w ws ih =>
      intro c' hc'
      have ha : addKV c' k w = (c', bytes "The Key: " ++ k ++ bytes " already exists\n") := by
        simp [addKV, hc']
      simp only [addKVs, ha, List.length_cons, List.replicate_succ, ih c' hc']
  have ha : addKV c k v = (⟨c.items.insert k ⟨[], v⟩⟩, k ++ bytes " Added to cache\n") := by
    simp [addKV, h]
  have he : ifexist (⟨c.items.insert k ⟨[], v⟩⟩ : cache) k = true := by
    simp [ifexist, GoMap.lookup, GoMap.insert, lookupL_insertL_self]
  simp only [addKVs, ha, hrest vs _ he]

end Gokv
